import Mathlib

/-!
Verification of the marznode node agent against its specification.

This file shallowly embeds the code of `marznode/backends/xray/_runner.py`,
`marznode/backends/xray/xray_backend.py` and `marznode/service/service.py`:
pure Python functions become Lean functions, the mutable connection-metadata
cache becomes explicit state passing over an association list (Python dicts
preserve insertion order; assignment to an existing key keeps its position),
`time.time()` becomes an explicit integer parameter, and code paths that raise
exceptions return `Option`/`Except` values.  The storage layer
(`marznode/storage/memory.py`) and the xray api client are not part of the
sources; where needed they are modelled from the specification and marked as
such.
-/

set_option maxRecDepth 10000

namespace Marznode

/-! ### Python string primitives

`int(...)`, `str.strip()`, the `in` substring test and `email.split(".")[0]`
as used by `_handle_log_line` and the stats parsers. -/

/-- Python `str.isspace` ASCII whitespace, the characters matched by `\s`. -/
def isPyWs (c : Char) : Bool :=
  c = ' ' || c = '\t' || c = '\n' || c = '\r' || c = '\x0b' || c = '\x0c'

/-- Decimal digit test. -/
def isPyDigit (c : Char) : Bool :=
  '0' ≤ c && c ≤ '9'

def digitVal (c : Char) : Nat := c.toNat - '0'.toNat

/-- Digits of a Python integer literal after the first one: decimal digits
with single underscores allowed between digits (`int("1_0") = 10`,
`int("1__0")` and `int("1_")` fail). -/
def pyDigitsRest (acc : Nat) : List Char → Option Nat
  | [] => some acc
  | '_' :: c :: cs =>
    if isPyDigit c then pyDigitsRest (acc * 10 + digitVal c) cs else none
  | '_' :: [] => none
  | c :: cs =>
    if isPyDigit c then pyDigitsRest (acc * 10 + digitVal c) cs else none

/-- A nonempty run of digits with single internal underscores. -/
def pyDigits : List Char → Option Nat
  | [] => none
  | c :: cs => if isPyDigit c then pyDigitsRest (digitVal c) cs else none

/-- Drop trailing characters satisfying `p`. -/
def dropEndWhile (p : Char → Bool) (l : List Char) : List Char :=
  (l.reverse.dropWhile p).reverse

/-- Python `int(s)` on a decimal string: optional surrounding whitespace,
an optional sign, then digits (with single underscores between digits).
`none` models a raised `ValueError`. -/
def pyInt (s : String) : Option Int :=
  let cs := dropEndWhile isPyWs (s.toList.dropWhile isPyWs)
  match cs with
  | '-' :: rest => (pyDigits rest).map (fun n => -(n : Int))
  | '+' :: rest => (pyDigits rest).map (fun n => (n : Int))
  | rest => (pyDigits rest).map (fun n => (n : Int))

/-- Python `s.split(".")[0]`: the part of the string before the first dot. -/
def beforeDot (s : String) : String :=
  String.mk (s.toList.takeWhile (fun c => c ≠ '.'))

/-- Case-sensitive substring test on char lists (Python `needle in haystack`). -/
def hasSubList (needle : List Char) : List Char → Bool
  | [] => needle.isEmpty
  | c :: rest => needle.isPrefixOf (c :: rest) || hasSubList needle rest

/-- Python `needle in line` substring test. -/
def hasSub (line needle : String) : Bool :=
  hasSubList needle.toList line.toList

/-- Scanner behind `pySplit`: split the input on the separator
`s0 :: ss`, left to right, non-overlapping; `acc` is the current field in
reverse.  Structural on `fuel`; every step shortens the input by at least
one character, so `fuel = input length` never runs out. -/
def splitSepAux (s0 : Char) (ss : List Char) : Nat → List Char → List Char → List (List Char)
  | _, [], acc => [acc.reverse]
  | 0, cs, acc => [acc.reverse ++ cs]
  | fuel + 1, c :: rest, acc =>
    if (s0 :: ss).isPrefixOf (c :: rest) then
      acc.reverse :: splitSepAux s0 ss fuel (rest.drop ss.length) []
    else
      splitSepAux s0 ss fuel rest (c :: acc)

/-- Python `s.split(sep)` for a nonempty separator. -/
def pySplit (s : String) (sep : String) : List String :=
  match sep.toList with
  | [] => [s]
  | c :: cc => (splitSepAux c cc s.toList.length s.toList []).map String.mk

/-! ### The access-log regular expression

```
ACCESS_LOG_RE = re.compile(
    r"from\s+(?:tcp:|udp:)?(?P<ip>[0-9a-fA-F:.]+):\d+\s+.*?\s+email:\s+(?P<email>[\w.\-@]+)",
    re.IGNORECASE)
```
embedded as a small backtracking matcher specialised to the pattern item
kinds that occur here: case-insensitive literals, greedy `+` over a character
class (plain or capturing), an optional two-way literal alternation, and the
lazy `.*?`.  Backtracking preference follows Python `re` (greedy longest
first, lazy shortest first, alternation left to right, leftmost search
position wins). -/

/-- `[0-9a-fA-F:.]`, the `ip` capture class. -/
def ipClass (c : Char) : Bool :=
  isPyDigit c || ('a' ≤ c && c ≤ 'f') || ('A' ≤ c && c ≤ 'F') || c = ':' || c = '.'

/-- `[\w.\-@]`, the `email` capture class (`\w` restricted to ASCII). -/
def emailClass (c : Char) : Bool :=
  isPyDigit c || ('a' ≤ c && c ≤ 'z') || ('A' ≤ c && c ≤ 'Z') || c = '_' ||
    c = '.' || c = '-' || c = '@'

/-- `.` in a pattern: any character except a newline. -/
def dotClass (c : Char) : Bool := c ≠ '\n'

/-- One component of the compiled pattern. -/
inductive Item where
  /-- a case-insensitive literal -/
  | lit (s : String)
  /-- greedy `[class]+` -/
  | plus (f : Char → Bool)
  /-- a captured greedy `[class]+`; `idx` is the group index -/
  | cap (idx : Nat) (f : Char → Bool)
  /-- `(?:s1|s2)?`: an optional alternation of two literals, greedy -/
  | opt2 (s1 s2 : String)
  /-- lazy `[class]*?` -/
  | lazyStar (f : Char → Bool)

/-- Strip a case-insensitive literal from the head of the input. -/
def stripCI : List Char → List Char → Option (List Char)
  | [], cs => some cs
  | _, [] => none
  | p :: ps, c :: cs => if p.toLower = c.toLower then stripCI ps cs else none

mutual

/-- Match a list of pattern items against a prefix of the input, returning the
captures (group index paired with captured characters) of the first match in
backtracking order.  `re.search` semantics: trailing input may remain.
Recursion is bounded by `fuel`; each recursive call strictly decreases the
measure `(cs.length + 2) * items.length + cs.length + 1`, so any fuel above
that bound makes the matcher total on its input. -/
def matchItems (fuel : Nat) : List Item → List Char → Option (List (Nat × List Char))
  | [], _ => some []
  | .lit s :: rest, cs =>
    match fuel with
    | 0 => none
    | fuel + 1 =>
      match stripCI s.toList cs with
      | some cs' => matchItems fuel rest cs'
      | none => none
  | .plus f :: rest, cs =>
    match fuel with
    | 0 => none
    | fuel + 1 => tryPlus fuel rest cs ((cs.takeWhile f).length)
  | .cap idx f :: rest, cs =>
    match fuel with
    | 0 => none
    | fuel + 1 => tryCap fuel idx rest cs ((cs.takeWhile f).length)
  | .opt2 s1 s2 :: rest, cs =>
    match fuel with
    | 0 => none
    | fuel + 1 =>
      match (match stripCI s1.toList cs with
             | some cs1 => matchItems fuel rest cs1
             | none => none) with
      | some caps => some caps
      | none =>
        match (match stripCI s2.toList cs with
               | some cs2 => matchItems fuel rest cs2
               | none => none) with
        | some caps => some caps
        | none => matchItems fuel rest cs
  | .lazyStar f :: rest, cs =>
    match fuel with
    | 0 => none
    | fuel + 1 =>
      match matchItems fuel rest cs with
      | some caps => some caps
      | none =>
        match cs with
        | [] => none
        | c :: cs' =>
          if f c then matchItems fuel (.lazyStar f :: rest) cs' else none

/-- Backtracking loop for greedy `[class]+`: consume `i` characters, longest
first, at least one. -/
def tryPlus (fuel : Nat) (rest : List Item) (cs : List Char) :
    Nat → Option (List (Nat × List Char))
  | 0 => none
  | i + 1 =>
    match fuel with
    | 0 => none
    | fuel + 1 =>
      match matchItems fuel rest (cs.drop (i + 1)) with
      | some caps => some caps
      | none => tryPlus fuel rest cs i

/-- As `tryPlus`, recording the consumed characters as capture `idx`. -/
def tryCap (fuel : Nat) (idx : Nat) (rest : List Item) (cs : List Char) :
    Nat → Option (List (Nat × List Char))
  | 0 => none
  | i + 1 =>
    match fuel with
    | 0 => none
    | fuel + 1 =>
      match matchItems fuel rest (cs.drop (i + 1)) with
      | some caps => some ((idx, cs.take (i + 1)) :: caps)
      | none => tryCap fuel idx rest cs i

end

/-- The compiled `ACCESS_LOG_RE` pattern; group 0 is `ip`, group 1 is `email`. -/
def accessLogItems : List Item :=
  [.lit "from", .plus isPyWs, .opt2 "tcp:" "udp:", .cap 0 ipClass, .lit ":",
   .plus isPyDigit, .plus isPyWs, .lazyStar dotClass, .plus isPyWs,
   .lit "email:", .plus isPyWs, .cap 1 emailClass]

/-- Fuel that dominates the matcher's decreasing measure on input `cs`,
so the engine never gives up before exhausting the backtracking space. -/
def matchFuel (cs : List Char) : Nat :=
  (cs.length + 2) * (accessLogItems.length + 2)

/-- `re.search` position loop: try a match at each start position, leftmost
match wins. -/
def searchFrom : List Char → Option (List (Nat × List Char))
  | [] => matchItems (matchFuel []) accessLogItems []
  | c :: cs =>
    match matchItems (matchFuel (c :: cs)) accessLogItems (c :: cs) with
    | some caps => some caps
    | none => searchFrom cs

/-- `ACCESS_LOG_RE.search(line)`, reduced to the two named groups:
`some (ip, email)` on a match, `none` otherwise. -/
def accessLogSearch (line : String) : Option (String × String) :=
  match searchFrom line.toList with
  | none => none
  | some caps =>
    match caps.lookup 0, caps.lookup 1 with
    | some ip, some email => some (String.mk ip, String.mk email)
    | _, _ => none

/-! ### The connection-metadata cache (`XrayCore`)

State of `self._last_meta` / `self._last_cleanup`.  The dict becomes an
association list in insertion order: assignment to an existing key replaces
the value in place, assignment to a fresh key appends, exactly as Python
dicts behave. -/

/-- Class constants of `XrayCore`. -/
def MAX_META_ENTRIES : Nat := 10000

def META_TTL : Int := 3600

def CLEANUP_INTERVAL : Int := 300

/-- One value of `self._last_meta`: `{"remote_ip": ..., "timestamp": ...}`. -/
structure MetaEntry where
  remoteIp : String
  timestamp : Int
  deriving DecidableEq, Repr

/-- The mutable state of the metadata extractor. -/
structure MetaState where
  lastMeta : List (Int × MetaEntry)
  lastCleanup : Int
  deriving DecidableEq, Repr

/-- Python dict assignment `d[k] = v`: replace in place if the key is
present, append otherwise (dicts preserve insertion order). -/
def alSet {α : Type} (k : Int) (v : α) : List (Int × α) → List (Int × α)
  | [] => [(k, v)]
  | (k', v') :: rest =>
    if k' = k then (k, v) :: rest else (k', v') :: alSet k v rest

/-- Python dict lookup `d.get(k)`. -/
def alGet {α : Type} (k : Int) (m : List (Int × α)) : Option α :=
  (m.find? (fun p => p.1 = k)).map (fun p => p.2)

/-- `defaultdict(int)` increment `d[k] += v`: add in place, or append the
fresh key with value `v`. -/
def alAdd (k : Int) (v : Int) : List (Int × Int) → List (Int × Int)
  | [] => [(k, v)]
  | (k', v') :: rest =>
    if k' = k then (k, v' + v) :: rest else (k', v') :: alAdd k v rest

/-- Stable insertion used by `sortByTs`: an element goes after every earlier
element with a strictly smaller or equal timestamp. -/
def insertByTs (p : Int × MetaEntry) : List (Int × MetaEntry) → List (Int × MetaEntry)
  | [] => [p]
  | q :: rest =>
    if q.2.timestamp < p.2.timestamp then q :: insertByTs p rest else p :: q :: rest

/-- Python `sorted(items, key=timestamp)`: the stable sort by timestamp
(insertion sort is extensionally the unique stable sort). -/
def sortByTs : List (Int × MetaEntry) → List (Int × MetaEntry)
  | [] => []
  | p :: rest => insertByTs p (sortByTs rest)

/-- `XrayCore._cleanup_old_meta`, with `time.time()` passed in as `now`:
skip unless `CLEANUP_INTERVAL` has elapsed since the last cleanup; then drop
entries older than `META_TTL`, and if the map still exceeds
`MAX_META_ENTRIES`, drop the oldest entries (stable sort by timestamp) until
back at the cap. -/
def cleanupOldMeta (now : Int) (s : MetaState) : MetaState :=
  if now - s.lastCleanup < CLEANUP_INTERVAL then s
  else
    let cutoff := now - META_TTL
    let kept := s.lastMeta.filter (fun p => !(p.2.timestamp < cutoff))
    if kept.length > MAX_META_ENTRIES then
      let toRemove := kept.length - MAX_META_ENTRIES
      let removedKeys := ((sortByTs kept).take toRemove).map (fun p => p.1)
      { lastMeta := kept.filter (fun p => !(removedKeys.contains p.1)),
        lastCleanup := now }
    else
      { lastMeta := kept, lastCleanup := now }

/-- The successful tail of `XrayCore._handle_log_line`: store
`{remote_ip, timestamp}` under the parsed uid, then run the opportunistic
cleanup. -/
def handleParsed (uid : Int) (ip : String) (now : Int) (s : MetaState) : MetaState :=
  cleanupOldMeta now { s with lastMeta := alSet uid ⟨ip, now⟩ s.lastMeta }

/-- `XrayCore._handle_log_line`: cheap substring pre-check, regex search,
numeric uid extraction from the email, then insert + cleanup.  Returns the
new state and the function's boolean result; every failure path returns the
state unchanged (the Python body catches all exceptions). -/
def handleLogLine (line : String) (now : Int) (s : MetaState) : MetaState × Bool :=
  if !(hasSub line "email:") || !(hasSub line "from") then (s, false)
  else
    match accessLogSearch line with
    | none => (s, false)
    | some (ip, email) =>
      match pyInt (beforeDot email) with
      | none => (s, false)
      | some uid => (handleParsed uid ip now s, true)

/-- Process a sequence of parsed insert events `(uid, ip, now)` in order;
each event is the cache effect of one successfully parsed log line
(see `handleLogLine_parsed`). -/
def processEvents (evts : List (Int × String × Int)) (s : MetaState) : MetaState :=
  evts.foldl (fun s e => handleParsed e.1 e.2.1 e.2.2 s) s

/-- `n` insert events for distinct uids `a, a+1, ...`, all at time 0. -/
def mkEvts : Int → Nat → List (Int × String × Int)
  | _, 0 => []
  | a, n + 1 => (a, "1.1.1.1", 0) :: mkEvts (a + 1) n

/-- `n` cache entries with distinct keys `a, a+1, ...`, all stamped at
time 3600. -/
def mkMeta : Int → Nat → List (Int × MetaEntry)
  | _, 0 => []
  | a, n + 1 => (a, ⟨"ip", 3600⟩) :: mkMeta (a + 1) n

/-- A concrete overfull cache: 10,001 entries with distinct keys, all
stamped at time 3600 (inside the TTL), last cleanup at 3300 (so the
cleanup interval has elapsed at time 3600). -/
def c1State : MetaState := ⟨mkMeta 0 10001, 3300⟩

/-! ### `XrayCore.get_last_meta` and `_parse_access_log_file` -/

/-- Python `str.strip()`. -/
def pyStrip (s : String) : String :=
  String.mk (dropEndWhile isPyWs (s.toList.dropWhile isPyWs))

/-- `max_lines` default of `_parse_access_log_file`. -/
def MAX_LOG_LINES : Nat := 500

/-- Python `l[-n:]`. -/
def takeLast {α : Type} (n : Nat) (l : List α) : List α :=
  l.drop (l.length - n)

/-- `XrayCore._parse_access_log_file`, with the file system abstracted into
its input: `fileLines = none` when no access-log file is found at any
candidate path (the function then only logs and leaves the state alone);
otherwise `fileLines = some lines` are the decoded lines read from the file,
of which the last `max_lines` are stripped and fed to `_handle_log_line`.
All exceptions are caught, so the function is total. -/
def parseAccessLogFile (fileLines : Option (List String)) (now : Int)
    (s : MetaState) : MetaState :=
  match fileLines with
  | none => s
  | some lines =>
    (takeLast MAX_LOG_LINES lines).foldl
      (fun st line => (handleLogLine (pyStrip line) now st).1) s

/-- `XrayCore.get_last_meta`: first re-parse the access-log file (mutating
the cache), then return the snapshot `{uid: {"remote_ip": ...}}` — every
cache entry carries a `remote_ip`, so the comprehension's guard always
holds.  Returns the snapshot and the post-call cache state. -/
def getLastMeta (fileLines : Option (List String)) (now : Int)
    (s : MetaState) : List (Int × String) × MetaState :=
  let s' := parseAccessLogFile fileLines now s
  (s'.lastMeta.map (fun p => (p.1, p.2.remoteIp)), s')

/-! ### The grpc service: user reconciliation (`MarzService`)

The storage backend (`marznode/storage/memory.py`) is not among the
sources; `Storage` and its four operations are modelled from the spec
("persistent storage of the user/inbound catalog (treated as a capability
interface)"): a user table keyed by numeric id plus the inbound catalog
keyed by tag.  `MarzService._update_user`, `SyncUsers` and
`RepopulateUsers` themselves are translated from `service.py`. -/

structure MUser where
  id : Nat
  username : String
  key : String
  deriving DecidableEq, Repr

structure MInbound where
  tag : String
  protocol : String
  deriving DecidableEq, Repr

structure StoredUser where
  user : MUser
  inbounds : List MInbound
  deriving DecidableEq, Repr

structure Storage where
  users : List StoredUser
  catalog : List MInbound
  deriving DecidableEq, Repr

/-- Modelled from the spec: storage capability `list_users(id)` — the stored
user with that id, if any. -/
def Storage.listUser (st : Storage) (uid : Nat) : Option StoredUser :=
  st.users.find? (fun su => su.user.id = uid)

/-- Modelled from the spec: storage capability `list_inbounds(tag=tags)` —
the catalog inbounds whose tag is among `tags`. -/
def Storage.listInbounds (st : Storage) (tags : List String) : List MInbound :=
  st.catalog.filter (fun i => tags.contains i.tag)

/-- Modelled from the spec: storage capability `update_user_inbounds` — set
the user's inbound membership, creating the user entry if absent. -/
def Storage.updateUserInbounds (st : Storage) (u : MUser) (ibs : List MInbound) :
    Storage :=
  if st.users.any (fun su => su.user.id = u.id) then
    { st with users := st.users.map (fun su =>
        if su.user.id = u.id then ⟨u, ibs⟩ else su) }
  else
    { st with users := st.users ++ [⟨u, ibs⟩] }

/-- Modelled from the spec: storage capability `remove_user`. -/
def Storage.removeUser (st : Storage) (uid : Nat) : Storage :=
  { st with users := st.users.filter (fun su => su.user.id ≠ uid) }

/-- A control-API operation issued by `_add_user` / `_remove_user`.  The
`_resolve_tag` dispatch to the backend owning the tag is abstracted away;
the op records the user id and the inbound tag. -/
inductive BackendOp where
  | add (uid : Nat) (tag : String)
  | remove (uid : Nat) (tag : String)
  deriving DecidableEq, Repr

/-- One element of the `SyncUsers` / `RepopulateUsers` request stream;
`inboundTags` is `[i.tag for i in user_data.inbounds]`. -/
structure UserData where
  user : MUser
  inboundTags : List String
  deriving DecidableEq, Repr

/-- `MarzService._add_user`: one add op per inbound. -/
def addUserOps (u : MUser) (ibs : List MInbound) : List BackendOp :=
  ibs.map (fun i => .add u.id i.tag)

/-- `MarzService._remove_user`: one remove op per inbound. -/
def removeUserOps (u : MUser) (ibs : List MInbound) : List BackendOp :=
  ibs.map (fun i => .remove u.id i.tag)

/-- `MarzService._update_user`: reconcile one user delta against storage,
returning the new storage and the control-API operations issued, in order.
Python set differences on tags are lists used only through membership. -/
def updateUser (ud : UserData) (st : Storage) : Storage × List BackendOp :=
  let u := ud.user
  match st.listUser u.id with
  | none =>
    if ud.inboundTags.length > 0 then
      let additions := st.listInbounds ud.inboundTags
      (st.updateUserInbounds u additions, addUserOps u additions)
    else
      (st, [])
  | some su =>
    if ud.inboundTags.isEmpty then
      (st.removeUser u.id, removeUserOps su.user su.inbounds)
    else
      let storageTags := su.inbounds.map (fun i => i.tag)
      let addedTags := ud.inboundTags.filter (fun t => !(storageTags.contains t))
      let removedTags := storageTags.filter (fun t => !(ud.inboundTags.contains t))
      let newInbounds := st.listInbounds ud.inboundTags
      let addedInbounds := st.listInbounds addedTags
      let removedInbounds := st.listInbounds removedTags
      (st.updateUserInbounds su.user newInbounds,
       removeUserOps su.user removedInbounds ++ addUserOps su.user addedInbounds)

/-- Storage effect of applying a list of user deltas in order
(the loop bodies of `SyncUsers` and `RepopulateUsers`). -/
def applyDeltas (uds : List UserData) (st : Storage) : Storage :=
  uds.foldl (fun st ud => (updateUser ud st).1) st

/-- Storage effect of `MarzService.RepopulateUsers`: apply all deltas, then
remove every stored user whose id is not in the request. -/
def repopulateUsers (uds : List UserData) (st : Storage) : Storage :=
  let st1 := applyDeltas uds st
  let ids := uds.map (fun ud => ud.user.id)
  { st1 with users := st1.users.filter (fun su => ids.contains su.user.id) }

/-- The user/inbound membership stored for `uid`: `none` if the user is not
stored, otherwise its list of inbound tags. -/
def storTags (st : Storage) (uid : Nat) : Option (List String) :=
  (st.listUser uid).map (fun su => su.inbounds.map (fun i => i.tag))

/-! ### `XrayBackend.get_usages` / `get_users_meta` stat parsing -/

/-- One element of the control API's `fetchStats` reply. -/
structure XStat where
  name : String
  value : Int
  deriving DecidableEq, Repr

/-- The summation loop of `XrayBackend.get_usages`:
`stats[int(stat.name.split(".")[0])] += stat.value` over a
`defaultdict(int)`.  The `int(...)` call is not guarded, so a malformed
name raises `ValueError`, modelled by `none`. -/
def getUsagesAcc (acc : List (Int × Int)) : List XStat → Option (List (Int × Int))
  | [] => some acc
  | stat :: rest =>
    match pyInt (beforeDot stat.name) with
    | none => none
    | some uid => getUsagesAcc (alAdd uid stat.value acc) rest

/-- `XrayBackend.get_usages` on the stat list returned by the api;
`none` models the propagated `ValueError`. -/
def getUsages (apiStats : List XStat) : Option (List (Int × Int)) :=
  getUsagesAcc [] apiStats

/-- The uplink/downlink collection loop of `XrayBackend.get_users_meta`:
stat names split on `">>>"`; entries with fewer than 4 parts or a
non-numeric identity prefix are skipped (`continue`), never raising. -/
def metaCountersAcc (up down : List (Int × Int)) :
    List XStat → List (Int × Int) × List (Int × Int)
  | [] => (up, down)
  | stat :: rest =>
    let parts := pySplit stat.name ">>>"
    if parts.length < 4 then metaCountersAcc up down rest
    else
      let email := parts.getD 1 ""
      let link := parts.getD 3 ""
      match pyInt (beforeDot email) with
      | none => metaCountersAcc up down rest
      | some uid =>
        if link = "uplink" then metaCountersAcc (alAdd uid stat.value up) down rest
        else if link = "downlink" then
          metaCountersAcc up (alAdd uid stat.value down) rest
        else metaCountersAcc up down rest

/-- The stat-parsing part of `XrayBackend.get_users_meta`: per-user uplink
and downlink sums. -/
def getUsersMetaCounters (apiStats : List XStat) :
    List (Int × Int) × List (Int × Int) :=
  metaCountersAcc [] [] apiStats

/-! ### Unknown-backend failure modes of the RPC handlers -/

/-- How a handler fails on an unknown backend name. -/
inductive PyFailure where
  /-- `GRPCError(Status.NOT_FOUND, ...)` -/
  | grpcNotFound
  /-- a bare `raise` with no active exception: `RuntimeError` -/
  | runtimeBareRaise
  /-- subscripting the registry dict with a missing key: `KeyError` -/
  | keyError
  deriving DecidableEq, Repr

/-- The backend registry as seen by the lookups: name and running flag. -/
def regNames (reg : List (String × Bool)) : List String :=
  reg.map (fun p => p.1)

/-- `MarzService.GetBackendStats`: explicit membership check raising
`GRPCError(NOT_FOUND)`, then reads `running`. -/
def getBackendStats (reg : List (String × Bool)) (name : String) :
    Except PyFailure Bool :=
  if (regNames reg).contains name then
    .ok ((((reg.find? (fun p => p.1 = name)).map (fun p => p.2))).getD false)
  else
    .error .grpcNotFound

/-- `MarzService.StreamBackendLogs`: `if req.backend_name not in
self._backends: raise` — a bare `raise`. -/
def streamBackendLogs (reg : List (String × Bool)) (name : String) :
    Except PyFailure Unit :=
  if (regNames reg).contains name then .ok () else .error .runtimeBareRaise

/-- `MarzService.RestartBackend`: unguarded dict subscript
`self._backends[message.backend_name]`. -/
def restartBackend (reg : List (String × Bool)) (name : String) :
    Except PyFailure Unit :=
  if (regNames reg).contains name then .ok () else .error .keyError

/-! ### `MarzService.FetchUsersStats` aggregation -/

/-- One backend's `get_users_meta()` record for a user, as a Python dict:
`none` models an absent key. -/
structure MetaInfo where
  remoteIp : Option String
  clientName : Option String
  userAgent : Option String
  uplink : Option Int
  downlink : Option Int
  protocol : Option String
  tlsFingerprint : Option String
  deriving DecidableEq, Repr

/-- What `FetchUsersStats` sees of one backend: its name, the (already
parsed) `get_usages()` map, and the `get_users_meta()` map — `none` when
the backend lacks the optional capability or its call raised (both paths
`continue`). -/
structure BackendView where
  name : String
  usages : List (Int × Int)
  meta : Option (List (Int × MetaInfo))
  deriving DecidableEq, Repr

/-- The accumulating `meta[uid]` dict of the merge loop. -/
structure MergedMeta where
  remoteIp : Option String
  clientName : Option String
  userAgent : Option String
  protocol : Option String
  tlsFingerprint : Option String
  deriving DecidableEq, Repr

/-- Python truthiness of `d.get(key)` for string fields: present and
non-empty. -/
def truthy : Option String → Bool
  | none => false
  | some s => s ≠ ""

/-- The in-flight dictionaries of `FetchUsersStats`. -/
structure AggState where
  totalUsage : List (Int × Int)
  totalUplink : List (Int × Int)
  totalDownlink : List (Int × Int)
  meta : List (Int × MergedMeta)
  deriving DecidableEq, Repr

/-- The body of `for uid, info in backend_meta.items()`: first-wins merge of
descriptive fields (client name falling back to the backend's name), and
accumulation of uplink/downlink when present. -/
def mergeOne (bname : String) (acc : AggState) (p : Int × MetaInfo) : AggState :=
  let uid := p.1
  let info := p.2
  let um := (alGet uid acc.meta).getD ⟨none, none, none, none, none⟩
  let um := if truthy info.remoteIp && !(truthy um.remoteIp) then
      { um with remoteIp := info.remoteIp } else um
  let um := if truthy info.clientName && !(truthy um.clientName) then
      { um with clientName := info.clientName }
    else if !(truthy um.clientName) then { um with clientName := some bname }
    else um
  let um := if truthy info.userAgent && !(truthy um.userAgent) then
      { um with userAgent := info.userAgent } else um
  let um := if truthy info.protocol && !(truthy um.protocol) then
      { um with protocol := info.protocol } else um
  let um := if truthy info.tlsFingerprint && !(truthy um.tlsFingerprint) then
      { um with tlsFingerprint := info.tlsFingerprint } else um
  let acc := { acc with meta := alSet uid um acc.meta }
  let acc := match info.uplink with
    | some v => { acc with totalUplink := alAdd uid v acc.totalUplink }
    | none => acc
  match info.downlink with
  | some v => { acc with totalDownlink := alAdd uid v acc.totalDownlink }
  | none => acc

/-- Per-backend step of `FetchUsersStats`: add its usages into
`total_usage`, then, if metadata is available, merge every record. -/
def processBackend (acc : AggState) (bv : BackendView) : AggState :=
  let acc := { acc with
    totalUsage := bv.usages.foldl (fun m q => alAdd q.1 q.2 m) acc.totalUsage }
  match bv.meta with
  | none => acc
  | some bmeta => bmeta.foldl (mergeOne bv.name) acc

/-- One element of the `UsersStats` reply. -/
structure UserStatsOut where
  uid : Int
  usage : Int
  remoteIp : String
  clientName : String
  userAgent : String
  uplink : Int
  downlink : Int
  protocol : String
  tlsFingerprint : String
  deriving DecidableEq, Repr

/-- The summed `total_usage` map after all backends are processed. -/
def totalUsageOf (views : List BackendView) : List (Int × Int) :=
  (views.foldl processBackend ⟨[], [], [], []⟩).totalUsage

/-- `MarzService.FetchUsersStats`: process every backend, then build one
reply entry per `total_usage` key, looking the other fields up with
defaults. -/
def fetchUsersStats (views : List BackendView) : List UserStatsOut :=
  let fin := views.foldl processBackend ⟨[], [], [], []⟩
  fin.totalUsage.map (fun p =>
    let info := (alGet p.1 fin.meta).getD ⟨none, none, none, none, none⟩
    { uid := p.1
      usage := p.2
      remoteIp := info.remoteIp.getD ""
      clientName := info.clientName.getD ""
      userAgent := info.userAgent.getD ""
      uplink := (alGet p.1 fin.totalUplink).getD 0
      downlink := (alGet p.1 fin.totalDownlink).getD 0
      protocol := info.protocol.getD ""
      tlsFingerprint := info.tlsFingerprint.getD "" })

/-! ### Concurrent restart (`XrayBackend.restart` / `XrayCore.restart`)

Two tasks each execute `XrayBackend.restart` (config `None`, so via
`XrayCore.restart`) under cooperative (asyncio) scheduling.  A task is a
program counter over the atomic segments between suspension points; the
shared state is the backend's `_restart_lock`, the runner's `restarting`
flag, and the trace of stop/start events observed by the process
supervisor.  A schedule picks which task runs at each step; a task that is
blocked on the lock (or finished) does nothing when picked, which is
exactly cooperative scheduling where it would not be runnable. -/

/-- Program counter of one restart call. -/
inductive RPc where
  /-- about to `await self._restart_lock.acquire()` -/
  | acq
  /-- holding the lock, about to test `self.restarting` -/
  | check
  /-- about to `await self.stop()` -/
  | stop
  /-- about to `await self.start(config)` -/
  | start
  /-- about to run the runner's `finally: self.restarting = False` -/
  | clear
  /-- about to release the backend restart lock -/
  | rel
  /-- returned -/
  | done
  deriving DecidableEq, Repr, Fintype

/-- Stop/start events observed by the process supervisor, tagged with the
task that caused them. -/
inductive REv where
  | stopped (t : Bool)
  | started (t : Bool)
  deriving DecidableEq, Repr

/-- Shared state of the two concurrent restart calls. -/
structure RCfg where
  pcF : RPc
  pcT : RPc
  lock : Option Bool
  flag : Bool
  trace : List REv
  deriving DecidableEq, Repr

def pcOf (c : RCfg) (t : Bool) : RPc := if t then c.pcT else c.pcF

def setPc (c : RCfg) (t : Bool) (p : RPc) : RCfg :=
  if t then { c with pcT := p } else { c with pcF := p }

/-- One cooperative step of task `t`. -/
def rstep (c : RCfg) (t : Bool) : RCfg :=
  match pcOf c t with
  | .acq =>
    match c.lock with
    | none => setPc { c with lock := some t } t .check
    | some _ => c
  | .check =>
    if c.flag then setPc c t .rel
    else setPc { c with flag := true } t .stop
  | .stop => setPc { c with trace := c.trace ++ [.stopped t] } t .start
  | .start => setPc { c with trace := c.trace ++ [.started t] } t .clear
  | .clear => setPc { c with flag := false } t .rel
  | .rel => setPc { c with lock := none } t .done
  | .done => c

/-- Run a schedule from a configuration. -/
def runSched (sch : List Bool) (c : RCfg) : RCfg := sch.foldl rstep c

/-- Both tasks about to request a restart. -/
def rInit : RCfg := ⟨.acq, .acq, none, false, []⟩

/-- Events a task has emitted so far, as a function of its progress. -/
def emitted (p : RPc) (t : Bool) : List REv :=
  match p with
  | .acq | .check | .stop => []
  | .start => [.stopped t]
  | .clear | .rel | .done => [.stopped t, .started t]

/-- Does a task at `p` hold the restart lock? -/
def holdsLock (p : RPc) : Bool :=
  match p with
  | .check | .stop | .start | .clear | .rel => true
  | .acq | .done => false

/-- Is the `restarting` flag set while a task is at `p`? -/
def flagPhase (p : RPc) : Bool :=
  match p with
  | .stop | .start | .clear => true
  | _ => false

/-- Reachable configuration: task `a` progressing (or finished) at `p`,
the other task still waiting to acquire. -/
def phaseA (a : Bool) (p : RPc) : RCfg :=
  { pcF := if a then .acq else p
    pcT := if a then p else .acq
    lock := if holdsLock p then some a else none
    flag := flagPhase p
    trace := emitted p a }

/-- Reachable configuration: task `a` finished its full cycle, the other
task `!a` progressing at `q`. -/
def phaseB (a : Bool) (q : RPc) : RCfg :=
  { pcF := if a then q else .done
    pcT := if a then .done else q
    lock := if holdsLock q then some (!a) else none
    flag := flagPhase q
    trace := [.stopped a, .started a] ++ emitted q (!a) }

/-- The reachable configurations of the two concurrent restart calls. -/
def RReach (c : RCfg) : Prop :=
  (∃ a p, c = phaseA a p) ∨ (∃ a q, c = phaseB a q)

instance : DecidablePred RReach := by
  intro c
  unfold RReach
  infer_instance

/-! ## Helper lemmas about the Python dict embedding -/

theorem alGet_alSet_self {α : Type} (k : Int) (v : α) (m : List (Int × α)) :
    alGet k (alSet k v m) = some v := by
  induction m with
  | nil => simp [alSet, alGet, List.find?]
  | cons p rest ih =>
    by_cases h : p.1 = k
    · simp [alSet, h, alGet, List.find?]
    · simpa [alSet, h, alGet, List.find?] using ih

theorem alSet_mem {α : Type} {k : Int} {v : α} {m : List (Int × α)} {p : Int × α}
    (hp : p ∈ alSet k v m) : p = (k, v) ∨ p ∈ m := by
  induction m with
  | nil => simpa [alSet] using hp
  | cons q rest ih =>
    by_cases h : q.1 = k
    · simp only [alSet, if_pos h, List.mem_cons] at hp
      rcases hp with hp | hp
      · exact Or.inl hp
      · exact Or.inr (List.mem_cons_of_mem _ hp)
    · simp only [alSet, if_neg h, List.mem_cons] at hp
      rcases hp with hp | hp
      · exact Or.inr (by simp [hp])
      · rcases ih hp with hp | hp
        · exact Or.inl hp
        · exact Or.inr (List.mem_cons_of_mem _ hp)

theorem alSet_keys_mem {α : Type} {k : Int} (v : α) {m : List (Int × α)}
    (hk : k ∈ m.map (fun p => p.1)) :
    (alSet k v m).map (fun p => p.1) = m.map (fun p => p.1) := by
  induction m with
  | nil => simp at hk
  | cons q rest ih =>
    by_cases h : q.1 = k
    · simp [alSet, h]
    · simp only [List.map_cons, List.mem_cons] at hk
      rcases hk with hk | hk
      · exact absurd hk.symm h
      · simp [alSet, h, ih hk]

theorem alSet_keys_notmem {α : Type} {k : Int} (v : α) {m : List (Int × α)}
    (hk : k ∉ m.map (fun p => p.1)) :
    alSet k v m = m ++ [(k, v)] := by
  induction m with
  | nil => simp [alSet]
  | cons q rest ih =>
    simp only [List.map_cons, List.mem_cons, not_or] at hk
    simp [alSet, Ne.symm hk.1, ih hk.2]

theorem alSet_length_le {α : Type} (k : Int) (v : α) (m : List (Int × α)) :
    (alSet k v m).length ≤ m.length + 1 := by
  induction m with
  | nil => simp [alSet]
  | cons q rest ih =>
    by_cases h : q.1 = k
    · simp [alSet, h]
    · simp only [alSet, if_neg h, List.length_cons]
      omega

theorem alGet_cons_pos {α : Type} {k : Int} {q : Int × α} (rest : List (Int × α))
    (hq : q.1 = k) : alGet k (q :: rest) = some q.2 := by
  unfold alGet
  rw [List.find?_cons_of_pos _ (by simp [hq])]
  rfl

theorem alGet_cons_neg {α : Type} {k : Int} {q : Int × α} (rest : List (Int × α))
    (hq : ¬(q.1 = k)) : alGet k (q :: rest) = alGet k rest := by
  unfold alGet
  rw [List.find?_cons_of_neg _ (by simp [hq])]

theorem alGet_some_mem {α : Type} {k : Int} {v : α} {m : List (Int × α)}
    (h : alGet k m = some v) : (k, v) ∈ m := by
  induction m with
  | nil => simp [alGet, List.find?] at h
  | cons q rest ih =>
    obtain ⟨q1, q2⟩ := q
    by_cases hq : q1 = k
    · rw [alGet_cons_pos rest hq] at h
      simp only [Option.some_inj] at h
      subst hq
      rw [← h]
      exact List.mem_cons_self _ _
    · rw [alGet_cons_neg rest hq] at h
      exact List.mem_cons_of_mem _ (ih h)

theorem alGet_filter_some {α : Type} {k : Int} {v : α} {m : List (Int × α)}
    (pf : Int × α → Bool)
    (h : alGet k m = some v) (hv : pf (k, v) = true) :
    alGet k (m.filter pf) = some v := by
  induction m with
  | nil => simp [alGet, List.find?] at h
  | cons q rest ih =>
    obtain ⟨q1, q2⟩ := q
    by_cases hq : q1 = k
    · rw [alGet_cons_pos rest hq] at h
      simp only [Option.some_inj] at h
      subst hq
      subst h
      rw [List.filter_cons_of_pos (by exact hv)]
      exact alGet_cons_pos _ rfl
    · rw [alGet_cons_neg rest hq] at h
      by_cases hpf : pf (q1, q2) = true
      · rw [List.filter_cons_of_pos (by exact hpf)]
        rw [alGet_cons_neg _ hq]
        exact ih h
      · rw [List.filter_cons_of_neg (by simpa using hpf)]
        exact ih h

theorem alGet_map {α β : Type} (k : Int) (f : α → β) (m : List (Int × α)) :
    alGet k (m.map (fun p => (p.1, f p.2))) = (alGet k m).map f := by
  induction m with
  | nil => simp [alGet, List.find?]
  | cons q rest ih =>
    by_cases hq : q.1 = k
    · simp [alGet, List.find?, hq]
    · simpa [alGet, List.find?, hq] using ih

theorem alAdd_keys {m : List (Int × Int)} (k v : Int) :
    (alAdd k v m).map (fun p => p.1) =
      if k ∈ m.map (fun p => p.1) then m.map (fun p => p.1)
      else m.map (fun p => p.1) ++ [k] := by
  induction m with
  | nil => simp [alAdd]
  | cons q rest ih =>
    by_cases h : q.1 = k
    · simp [alAdd, h]
    · simp only [alAdd, if_neg h, List.map_cons, ih]
      by_cases hk : k ∈ rest.map (fun p => p.1) <;>
        simp [hk, Ne.symm h]

theorem nodup_append_singleton {α : Type} [DecidableEq α] {l : List α} {a : α}
    (h : l.Nodup) (ha : a ∉ l) : (l ++ [a]).Nodup := by
  refine List.nodup_append.mpr ⟨h, List.nodup_singleton a, ?_⟩
  intro x hx hx'
  simp only [List.mem_singleton] at hx'
  subst hx'
  exact ha hx

theorem alAdd_keys_nodup {m : List (Int × Int)} (k v : Int)
    (h : (m.map (fun p => p.1)).Nodup) :
    ((alAdd k v m).map (fun p => p.1)).Nodup := by
  rw [alAdd_keys]
  by_cases hk : k ∈ m.map (fun p => p.1)
  · simpa [hk] using h
  · simp only [hk, if_false]
    exact nodup_append_singleton h hk

theorem alSet_keys_nodup {α : Type} {k : Int} (v : α) {m : List (Int × α)}
    (h : (m.map (fun p => p.1)).Nodup) :
    ((alSet k v m).map (fun p => p.1)).Nodup := by
  by_cases hk : k ∈ m.map (fun p => p.1)
  · rw [alSet_keys_mem v hk]
    exact h
  · rw [alSet_keys_notmem v hk, List.map_append]
    exact nodup_append_singleton h hk

theorem key_unique_of_nodup {α : Type} {l : List (Int × α)} {p q : Int × α}
    (hn : (l.map (fun r => r.1)).Nodup) (hp : p ∈ l) (hq : q ∈ l)
    (hk : p.1 = q.1) : p = q := by
  induction l with
  | nil => simp at hp
  | cons r rest ih =>
    simp only [List.map_cons, List.nodup_cons] at hn
    rcases List.mem_cons.mp hp with hp1 | hp1 <;>
      rcases List.mem_cons.mp hq with hq1 | hq1
    · rw [hp1, hq1]
    · subst hp1
      refine absurd ?_ hn.1
      rw [hk]
      exact List.mem_map_of_mem (fun r => r.1) hq1
    · subst hq1
      refine absurd ?_ hn.1
      rw [← hk]
      exact List.mem_map_of_mem (fun r => r.1) hp1
    · exact ih hn.2 hp1 hq1

/-! ## C8: unknown backend names -/

/-- Claim C8 counterexample: the claim says every RPC referencing an unknown
backend name fails with a NotFound-style status, naming `GetBackendStats`,
`StreamBackendLogs` and `RestartBackend`.  On the empty registry and name
"x", `StreamBackendLogs` hits a bare `raise` with no active exception (a
`RuntimeError`) and `RestartBackend` hits an unguarded dict subscript (a
`KeyError`); neither is the NotFound status the claim requires. -/
theorem C8_cex :
    streamBackendLogs [] "x" = .error .runtimeBareRaise ∧
    restartBackend [] "x" = .error .keyError ∧
    streamBackendLogs [] "x" ≠ .error .grpcNotFound ∧
    restartBackend [] "x" ≠ .error .grpcNotFound := by
  refine ⟨rfl, rfl, by simp [streamBackendLogs, regNames],
    by simp [restartBackend, regNames]⟩

/-- Claim C8, amended: for every RPC call referencing a backend name not in
the registry, `GetBackendStats` fails with the NotFound gRPC status, while
`StreamBackendLogs` fails with a `RuntimeError` from a bare `raise` and
`RestartBackend` fails with a `KeyError` — all three fail rather than
succeed, but only `GetBackendStats` yields a NotFound-style status. -/
theorem C8_thm (reg : List (String × Bool)) (name : String)
    (h : name ∉ regNames reg) :
    getBackendStats reg name = .error .grpcNotFound ∧
    streamBackendLogs reg name = .error .runtimeBareRaise ∧
    restartBackend reg name = .error .keyError := by
  refine ⟨?_, ?_, ?_⟩ <;> simp [getBackendStats, streamBackendLogs, restartBackend, h]

/-- Witness for C8_thm at the registry `[("xray", true)]` and name "siren". -/
theorem C8_wit :
    "siren" ∉ regNames [("xray", true)] ∧
    (getBackendStats [("xray", true)] "siren" = .error .grpcNotFound ∧
     streamBackendLogs [("xray", true)] "siren" = .error .runtimeBareRaise ∧
     restartBackend [("xray", true)] "siren" = .error .keyError) :=
  ⟨by decide, C8_thm [("xray", true)] "siren" (by decide)⟩

/-! ## C7: malformed stat entries -/

theorem metaCountersAcc_skip (stat : XStat) (post : List XStat)
    (hm : (pySplit stat.name ">>>").length < 4 ∨
          pyInt (beforeDot ((pySplit stat.name ">>>").getD 1 "")) = none) :
    ∀ (pre : List XStat) (up down : List (Int × Int)),
      metaCountersAcc up down (pre ++ stat :: post) =
      metaCountersAcc up down (pre ++ post) := by
  intro pre
  induction pre with
  | nil =>
    intro up down
    simp only [List.nil_append, metaCountersAcc]
    rcases hm with hm | hm
    · rw [if_pos hm]
    · by_cases h4 : (pySplit stat.name ">>>").length < 4
      · rw [if_pos h4]
      · rw [if_neg h4, hm]
  | cons s pre ih =>
    intro up down
    simp only [List.cons_append, metaCountersAcc]
    split
    · exact ih up down
    · split
      · exact ih up down
      · split
        · exact ih _ down
        · split
          · exact ih up _
          · exact ih up down

theorem getUsagesAcc_none (stat : XStat) (h : pyInt (beforeDot stat.name) = none) :
    ∀ (l : List XStat) (acc : List (Int × Int)), stat ∈ l →
      getUsagesAcc acc l = none := by
  intro l
  induction l with
  | nil =>
    intro acc h'
    simp at h'
  | cons s rest ih =>
    intro acc hmem
    rcases List.mem_cons.mp hmem with rfl | hmem
    · simp [getUsagesAcc, h]
    · cases hp : pyInt (beforeDot s.name) with
      | none => simp [getUsagesAcc, hp]
      | some uid => simpa [getUsagesAcc, hp] using ih _ hmem

/-- Claim C7 counterexample: the claim says both `get_usages` and
`get_users_meta` silently discard a malformed stat entry and still sum the
well-formed remainder.  On `[{name "garbage"}, {name "3.bob"}]`,
`get_usages` raises `ValueError` from the unguarded
`int(stat.name.split(".")[0])` (modelled by `none`) instead of returning the
summed remainder `some [(3, 7)]`. -/
theorem C7_cex :
    getUsages [⟨"garbage", 5⟩, ⟨"3.bob", 7⟩] = none ∧
    getUsages [⟨"garbage", 5⟩, ⟨"3.bob", 7⟩] ≠ some [(3, 7)] := by
  refine ⟨rfl, ?_⟩
  decide

/-- Claim C7, amended: `get_users_meta` silently discards a stat entry whose
name has fewer than four `">>>"` parts or whose identity prefix is
non-numeric, never raising and leaving the uplink/downlink sums of the
remaining entries untouched; `get_usages`, however, raises `ValueError`
(modelled by `none`) as soon as any entry's identity prefix fails
`int(...)`, losing the well-formed remainder. -/
theorem C7_thm (pre post : List XStat) (stat : XStat)
    (hm : (pySplit stat.name ">>>").length < 4 ∨
          pyInt (beforeDot ((pySplit stat.name ">>>").getD 1 "")) = none) :
    getUsersMetaCounters (pre ++ stat :: post) = getUsersMetaCounters (pre ++ post) ∧
    (pyInt (beforeDot stat.name) = none → getUsages (pre ++ stat :: post) = none) := by
  refine ⟨metaCountersAcc_skip stat post hm pre [] [], fun h => ?_⟩
  exact getUsagesAcc_none stat h _ []
    (List.mem_append_right pre (List.mem_cons_self _ _))

/-- Witness for C7_thm: the malformed entry `{name "garbage"}` amid two
well-formed ones. -/
theorem C7_wit :
    ((pySplit "garbage" ">>>").length < 4 ∨
      pyInt (beforeDot ((pySplit "garbage" ">>>").getD 1 "")) = none) ∧
    (getUsersMetaCounters
        ([⟨"user>>>3.a>>>traffic>>>uplink", 2⟩] ++ ⟨"garbage", 5⟩ ::
          [⟨"user>>>4.b>>>traffic>>>downlink", 9⟩]) =
      getUsersMetaCounters
        ([⟨"user>>>3.a>>>traffic>>>uplink", 2⟩] ++
          [⟨"user>>>4.b>>>traffic>>>downlink", 9⟩]) ∧
     (pyInt (beforeDot ("garbage" : String)) = none →
      getUsages ([⟨"user>>>3.a>>>traffic>>>uplink", 2⟩] ++ ⟨"garbage", 5⟩ ::
          [⟨"user>>>4.b>>>traffic>>>downlink", 9⟩]) = none)) :=
  ⟨by decide,
   C7_thm [⟨"user>>>3.a>>>traffic>>>uplink", 2⟩]
     [⟨"user>>>4.b>>>traffic>>>downlink", 9⟩] ⟨"garbage", 5⟩ (by decide)⟩

/-! ## C3: log lines without markers never mutate the cache -/

/-- Claim C3: for every log line that lacks the `"from"` address marker or
the `"email:"` identity marker, or whose identity prefix is non-numeric,
`_handle_log_line` leaves the metadata cache completely unchanged and
returns `False`; the embedding is a total function, mirroring the catch-all
`except` that prevents any exception from escaping. -/
theorem C3_thm (line : String) (now : Int) (s : MetaState)
    (h : hasSub line "from" = false ∨ hasSub line "email:" = false ∨
         ∀ ip email, accessLogSearch line = some (ip, email) →
           pyInt (beforeDot email) = none) :
    handleLogLine line now s = (s, false) := by
  unfold handleLogLine
  rcases h with h | h | h
  · have hc : (!(hasSub line "email:") || !(hasSub line "from")) = true := by
      simp [h]
    rw [if_pos hc]
  · have hc : (!(hasSub line "email:") || !(hasSub line "from")) = true := by
      simp [h]
    rw [if_pos hc]
  · by_cases hpre : (!(hasSub line "email:") || !(hasSub line "from")) = true
    · rw [if_pos hpre]
    · rw [if_neg hpre]
      cases hs : accessLogSearch line with
      | none => rfl
      | some p =>
        obtain ⟨ip, email⟩ := p
        simp [hs, h ip email hs]

/-- Witness for C3_thm on three concrete lines: one with no markers at all,
one missing the address marker, and one whose identity prefix is
non-numeric. -/
theorem C3_wit :
    hasSub "xray 1.8.1 started" "from" = false ∧
    handleLogLine "xray 1.8.1 started" 7 ⟨[], 0⟩ = (⟨[], 0⟩, false) ∧
    hasSub "accepted email: 5.bob" "from" = false ∧
    handleLogLine "accepted email: 5.bob" 7 ⟨[], 0⟩ = (⟨[], 0⟩, false) ∧
    handleLogLine "from 1.2.3.4:56  email: bob@host" 7 ⟨[], 0⟩ = (⟨[], 0⟩, false) :=
  ⟨by decide,
   C3_thm "xray 1.8.1 started" 7 ⟨[], 0⟩ (Or.inl (by decide)),
   by decide,
   C3_thm "accepted email: 5.bob" 7 ⟨[], 0⟩ (Or.inl (by decide)),
   C3_thm "from 1.2.3.4:56  email: bob@host" 7 ⟨[], 0⟩
     (Or.inr (Or.inr (by
       intro ip email heq
       have h0 : accessLogSearch "from 1.2.3.4:56  email: bob@host" =
           some ("1.2.3.4", "bob@host") := by decide
       rw [h0] at heq
       injection heq with hpair
       injection hpair with h1 h2
       rw [← h2]
       decide)))⟩

/-! ## C9: `get_last_meta` -/

/-- Claim C9 counterexample: the claim says every `get_last_meta` call
leaves the cache unchanged.  But `get_last_meta` first calls
`_parse_access_log_file`, which feeds the access-log file's lines to
`_handle_log_line`: with one parseable line on disk, the call inserts an
entry for uid 7 into a previously empty cache. -/
theorem C9_cex :
    (getLastMeta (some ["from 1.2.3.4:56  email: 7.u"]) 0 ⟨[], 0⟩).2 =
      ⟨[(7, ⟨"1.2.3.4", 0⟩)], 0⟩ ∧
    (getLastMeta (some ["from 1.2.3.4:56  email: 7.u"]) 0 ⟨[], 0⟩).2 ≠
      ⟨[], 0⟩ := by
  refine ⟨rfl, ?_⟩
  decide

/-- Claim C9, amended: `get_last_meta` first re-parses the access-log file,
which may insert or refresh cache entries; when no log file is found the
cache is left unchanged.  The returned snapshot maps each cached user id to
its remote IP only — looked up by uid it is exactly the cache's
`remote_ip` field, and timestamps do not appear in it. -/
theorem C9_thm (fl : Option (List String)) (now : Int) (s : MetaState) :
    (getLastMeta none now s).2 = s ∧
    (getLastMeta fl now s).1 =
      (getLastMeta fl now s).2.lastMeta.map (fun p => (p.1, p.2.remoteIp)) ∧
    ∀ uid, alGet uid (getLastMeta fl now s).1 =
      (alGet uid (getLastMeta fl now s).2.lastMeta).map (fun e => e.remoteIp) := by
  refine ⟨rfl, rfl, fun uid => ?_⟩
  exact alGet_map uid (fun e => e.remoteIp)
    (parseAccessLogFile fl now s).lastMeta

/-! ## C10: `FetchUsersStats` returns one entry per summed-usage uid -/

theorem mergeOne_totalUsage (b : String) (acc : AggState) (p : Int × MetaInfo) :
    (mergeOne b acc p).totalUsage = acc.totalUsage := by
  obtain ⟨uid, info⟩ := p
  unfold mergeOne
  dsimp only
  cases hu : info.uplink <;> cases hd : info.downlink <;> simp [hu, hd]

theorem foldl_mergeOne_totalUsage (b : String) (l : List (Int × MetaInfo)) :
    ∀ acc : AggState, (l.foldl (mergeOne b) acc).totalUsage = acc.totalUsage := by
  induction l with
  | nil => intro acc; rfl
  | cons p rest ih =>
    intro acc
    rw [List.foldl_cons, ih, mergeOne_totalUsage]

theorem processBackend_totalUsage (acc : AggState) (bv : BackendView) :
    (processBackend acc bv).totalUsage =
      bv.usages.foldl (fun m q => alAdd q.1 q.2 m) acc.totalUsage := by
  unfold processBackend
  cases bv.meta with
  | none => rfl
  | some bmeta => exact foldl_mergeOne_totalUsage bv.name bmeta _

theorem foldl_alAdd_keys_nodup (l : List (Int × Int)) :
    ∀ m : List (Int × Int), (m.map (fun p => p.1)).Nodup →
      ((l.foldl (fun m q => alAdd q.1 q.2 m) m).map (fun p => p.1)).Nodup := by
  induction l with
  | nil => intro m h; exact h
  | cons q rest ih =>
    intro m h
    rw [List.foldl_cons]
    exact ih _ (alAdd_keys_nodup _ _ h)

theorem totalUsage_keys_nodup (views : List BackendView) :
    ((totalUsageOf views).map (fun p => p.1)).Nodup := by
  suffices h : ∀ acc : AggState, (acc.totalUsage.map (fun p => p.1)).Nodup →
      (((views.foldl processBackend acc).totalUsage).map (fun p => p.1)).Nodup from
    h ⟨[], [], [], []⟩ (by simp)
  induction views with
  | nil => intro acc h; exact h
  | cons bv rest ih =>
    intro acc h
    rw [List.foldl_cons]
    apply ih
    rw [processBackend_totalUsage]
    exact foldl_alAdd_keys_nodup _ _ h

/-- Claim C10: for every `FetchUsersStats` call, the returned list has
exactly one entry per user id present in the summed per-backend usage
counters (`total_usage`), and a uid absent from those counters — even one
appearing only in backend metadata, with a cached IP or uplink/downlink
figures — has count 0, i.e. is omitted entirely. -/
theorem C10_thm (views : List BackendView) (uid : Int) :
    ((fetchUsersStats views).map (fun r => r.uid)).count uid =
      if uid ∈ (totalUsageOf views).map (fun p => p.1) then 1 else 0 := by
  have hmap : (fetchUsersStats views).map (fun r => r.uid) =
      (totalUsageOf views).map (fun p => p.1) := by
    unfold fetchUsersStats totalUsageOf
    rw [List.map_map]
    rfl
  rw [hmap]
  have hnd := totalUsage_keys_nodup views
  by_cases hmem : uid ∈ (totalUsageOf views).map (fun p => p.1)
  · rw [if_pos hmem]
    exact List.count_eq_one_of_mem hnd hmem
  · rw [if_neg hmem]
    exact List.count_eq_zero_of_not_mem hmem

/-! ## C5: concurrent restarts -/

theorem rreach_step (c : RCfg) (hc : RReach c) (t : Bool) : RReach (rstep c t) := by
  rcases hc with ⟨a, p, rfl⟩ | ⟨a, q, rfl⟩
  · revert a p t
    decide
  · revert a q t
    decide

theorem rreach_run (sch : List Bool) : ∀ c : RCfg, RReach c → RReach (runSched sch c) := by
  induction sch with
  | nil => intro c h; exact h
  | cons t rest ih =>
    intro c h
    exact ih _ (rreach_step c h t)

/-- Claim C5 counterexample: the claim says two concurrent restart calls
produce exactly one underlying stop-then-start cycle.  Under the schedule
that runs the first caller to completion and then the second, both calls
complete and the supervisor observes TWO full stop+start cycles — the
backend-level `asyncio.Lock` queues the second restart but does not
deduplicate it, and the runner's `restarting` flag is always `False` again
by the time the second caller holds the lock. -/
theorem C5_cex :
    (runSched [false, false, false, false, false, false,
               true, true, true, true, true, true] rInit).pcF = .done ∧
    (runSched [false, false, false, false, false, false,
               true, true, true, true, true, true] rInit).pcT = .done ∧
    (runSched [false, false, false, false, false, false,
               true, true, true, true, true, true] rInit).trace =
      [.stopped false, .started false, .stopped true, .started true] ∧
    ((runSched [false, false, false, false, false, false,
                true, true, true, true, true, true] rInit).trace.filter
      (fun e => match e with | .stopped _ => true | .started _ => false)).length = 2 :=
  ⟨rfl, rfl, rfl, rfl⟩

/-- Claim C5, amended: for every cooperative schedule under which two
concurrent restart calls on the same backend both complete, the event
trace is exactly one caller's full stop+start cycle followed by the
other's: each call performs its own cycle, the second queued strictly
behind the first by the restart lock, cycles never interleaved and no
request lost — but two cycles in total, not one. -/
theorem C5_thm (sch : List Bool)
    (hF : (runSched sch rInit).pcF = .done)
    (hT : (runSched sch rInit).pcT = .done) :
    ∃ a : Bool, (runSched sch rInit).trace =
      [.stopped a, .started a, .stopped (!a), .started (!a)] := by
  have hr : RReach (runSched sch rInit) :=
    rreach_run sch rInit (Or.inl ⟨false, .acq, rfl⟩)
  rcases hr with ⟨a, p, heq⟩ | ⟨a, q, heq⟩
  · rw [heq] at hF hT
    exfalso
    cases a
    · simp [phaseA] at hT
    · simp [phaseA] at hF
  · rw [heq] at hF hT ⊢
    cases a
    · have hq : q = .done := by simpa [phaseB] using hT
      subst hq
      exact ⟨false, rfl⟩
    · have hq : q = .done := by simpa [phaseB] using hF
      subst hq
      exact ⟨true, rfl⟩

/-- Witness for C5_thm: the schedule running the second caller first. -/
theorem C5_wit :
    (runSched [true, true, true, true, true, true,
               false, false, false, false, false, false] rInit).pcF = .done ∧
    (runSched [true, true, true, true, true, true,
               false, false, false, false, false, false] rInit).pcT = .done ∧
    ∃ a : Bool, (runSched [true, true, true, true, true, true,
               false, false, false, false, false, false] rInit).trace =
      [.stopped a, .started a, .stopped (!a), .started (!a)] :=
  ⟨rfl, rfl,
   C5_thm [true, true, true, true, true, true,
           false, false, false, false, false, false] rfl rfl⟩

/-! ## C1: capacity eviction of the metadata cache -/

/-- Bridge between raw log lines and insert events: a line that passes the
pre-check, matches the pattern and carries a numeric identity prefix acts
on the cache exactly as the insert event `(uid, ip, now)`. -/
theorem handleLogLine_parsed (line : String) (now : Int) (s : MetaState)
    (ip email : String) (uid : Int)
    (hpre1 : hasSub line "from" = true) (hpre2 : hasSub line "email:" = true)
    (hsearch : accessLogSearch line = some (ip, email))
    (huid : pyInt (beforeDot email) = some uid) :
    handleLogLine line now s = (handleParsed uid ip now s, true) := by
  simp [handleLogLine, hpre1, hpre2, hsearch, huid]

theorem insertByTs_perm (p : Int × MetaEntry) (l : List (Int × MetaEntry)) :
    List.Perm (insertByTs p l) (p :: l) := by
  induction l with
  | nil => exact List.Perm.refl _
  | cons q rest ih =>
    by_cases h : q.2.timestamp < p.2.timestamp
    · simp only [insertByTs, if_pos h]
      exact (ih.cons q).trans (List.Perm.swap p q rest)
    · simp only [insertByTs, if_neg h]
      exact List.Perm.refl _

theorem sortByTs_perm (l : List (Int × MetaEntry)) : List.Perm (sortByTs l) l := by
  induction l with
  | nil => exact List.Perm.refl _
  | cons p rest ih => exact (insertByTs_perm p (sortByTs rest)).trans (ih.cons p)

theorem insertByTs_pairwise (p : Int × MetaEntry) (l : List (Int × MetaEntry))
    (h : l.Pairwise (fun a b => a.2.timestamp ≤ b.2.timestamp)) :
    (insertByTs p l).Pairwise (fun a b => a.2.timestamp ≤ b.2.timestamp) := by
  induction l with
  | nil => simp [insertByTs]
  | cons q rest ih =>
    rcases List.pairwise_cons.mp h with ⟨hq, hrest⟩
    by_cases hlt : q.2.timestamp < p.2.timestamp
    · simp only [insertByTs, if_pos hlt]
      refine List.pairwise_cons.mpr ⟨?_, ih hrest⟩
      intro b hb
      rcases List.mem_cons.mp ((insertByTs_perm p rest).mem_iff.mp hb) with rfl | hb
      · exact le_of_lt hlt
      · exact hq b hb
    · simp only [insertByTs, if_neg hlt]
      refine List.pairwise_cons.mpr ⟨?_, h⟩
      intro b hb
      rcases List.mem_cons.mp hb with rfl | hb
      · exact le_of_not_lt hlt
      · exact le_trans (le_of_not_lt hlt) (hq b hb)

theorem sortByTs_pairwise (l : List (Int × MetaEntry)) :
    (sortByTs l).Pairwise (fun a b => a.2.timestamp ≤ b.2.timestamp) := by
  induction l with
  | nil => simp [sortByTs]
  | cons p rest ih => exact insertByTs_pairwise p (sortByTs rest) ih

theorem filter_eq_self_of {α : Type} (p : α → Bool) (l : List α)
    (h : ∀ a ∈ l, p a = true) : l.filter p = l := by
  induction l with
  | nil => rfl
  | cons a rest ih =>
    rw [List.filter_cons_of_pos (h a (List.mem_cons_self a rest))]
    rw [ih (fun b hb => h b (List.mem_cons_of_mem a hb))]

/-- Core of the capacity pass of `_cleanup_old_meta`: deleting the keys of
the first `m` entries of the stable sort keeps, up to permutation, exactly
the sorted list's tail. -/
theorem cleanup_capacity_perm (l : List (Int × MetaEntry)) (m : Nat)
    (hkeys : (l.map (fun p => p.1)).Nodup) :
    List.Perm
      (l.filter (fun p =>
        !((((sortByTs l).take m).map (fun q => q.1)).contains p.1)))
      ((sortByTs l).drop m) := by
  set pred := fun p : Int × MetaEntry =>
    !((((sortByTs l).take m).map (fun q => q.1)).contains p.1) with hpred
  have hperm : List.Perm (sortByTs l) l := sortByTs_perm l
  have hkeys' : ((sortByTs l).map (fun p => p.1)).Nodup :=
    (hperm.map (fun p => p.1)).nodup_iff.mpr hkeys
  have h1 : List.Perm (l.filter pred) ((sortByTs l).filter pred) :=
    (hperm.filter pred).symm
  have hsplit : (sortByTs l).take m ++ (sortByTs l).drop m = sortByTs l :=
    List.take_append_drop m (sortByTs l)
  have hkeysapp : ((sortByTs l).take m).map (fun p => p.1) ++
      ((sortByTs l).drop m).map (fun p => p.1) =
      ((sortByTs l).map (fun p => p.1)) := by
    rw [← List.map_append, hsplit]
  have hdisj : ∀ x ∈ ((sortByTs l).take m).map (fun p => p.1),
      x ∉ ((sortByTs l).drop m).map (fun p => p.1) := by
    have := hkeysapp ▸ hkeys'
    exact fun x hx hx' => (List.nodup_append.mp this).2.2 hx hx'
  have h3 : ((sortByTs l).take m).filter pred = [] := by
    apply List.filter_eq_nil_iff.mpr
    intro p hp
    simp only [hpred, Bool.not_eq_true', Bool.not_eq_false]
    exact List.elem_eq_true_of_mem (List.mem_map_of_mem (fun q => q.1) hp)
  have h4 : ((sortByTs l).drop m).filter pred = (sortByTs l).drop m := by
    apply filter_eq_self_of
    intro q hq
    simp only [hpred, Bool.not_eq_true']
    have hqnot : q.1 ∉ ((sortByTs l).take m).map (fun p => p.1) := by
      intro hq'
      exact hdisj q.1 hq' (List.mem_map_of_mem (fun p => p.1) hq)
    simpa using hqnot
  calc List.Perm (l.filter pred) ((sortByTs l).filter pred) := h1
    _ = ((sortByTs l).take m ++ (sortByTs l).drop m).filter pred := by rw [hsplit]
    _ = ((sortByTs l).take m).filter pred ++ ((sortByTs l).drop m).filter pred :=
        List.filter_append _ _
    _ = (sortByTs l).drop m := by rw [h3, h4, List.nil_append]

theorem cleanupOldMeta_skip (now : Int) (s : MetaState)
    (h : now - s.lastCleanup < CLEANUP_INTERVAL) : cleanupOldMeta now s = s := by
  unfold cleanupOldMeta
  rw [if_pos h]

theorem mkEvts_length : ∀ (n : Nat) (a : Int), (mkEvts a n).length = n := by
  intro n
  induction n with
  | zero => intro a; rfl
  | succ n ih => intro a; simp [mkEvts, ih]

theorem mkEvts_uid_lb : ∀ (n : Nat) (a : Int) (u : Int),
    u ∈ (mkEvts a n).map (fun e => e.1) → a ≤ u := by
  intro n
  induction n with
  | zero => intro a u h; simp [mkEvts] at h
  | succ n ih =>
    intro a u h
    simp only [mkEvts, List.map_cons, List.mem_cons] at h
    rcases h with rfl | h
    · exact le_refl u
    · exact le_trans (by omega) (ih (a + 1) u h)

theorem mkEvts_uids_nodup : ∀ (n : Nat) (a : Int),
    ((mkEvts a n).map (fun e => e.1)).Nodup := by
  intro n
  induction n with
  | zero => intro a; simp [mkEvts]
  | succ n ih =>
    intro a
    simp only [mkEvts, List.map_cons, List.nodup_cons]
    refine ⟨fun hmem => ?_, ih (a + 1)⟩
    have := mkEvts_uid_lb n (a + 1) a hmem
    omega

theorem processEvents_no_cleanup :
    ∀ (n : Nat) (a : Int) (s : MetaState), s.lastCleanup = 0 →
      (∀ u ∈ s.lastMeta.map (fun p => p.1), u < a) →
      (processEvents (mkEvts a n) s).lastMeta.length = s.lastMeta.length + n ∧
      (processEvents (mkEvts a n) s).lastCleanup = 0 ∧
      (∀ u ∈ (processEvents (mkEvts a n) s).lastMeta.map (fun p => p.1),
        u < a + (n : Int)) := by
  intro n
  induction n with
  | zero =>
    intro a s h1 h2
    refine ⟨rfl, h1, fun u hu => ?_⟩
    have := h2 u hu
    omega
  | succ n ih =>
    intro a s h1 h2
    have hnot : (a : Int) ∉ s.lastMeta.map (fun p => p.1) := fun hmem =>
      lt_irrefl a (h2 a hmem)
    have hset : alSet a ⟨"1.1.1.1", 0⟩ s.lastMeta =
        s.lastMeta ++ [(a, ⟨"1.1.1.1", 0⟩)] := alSet_keys_notmem _ hnot
    have hgate : (0 : Int) - s.lastCleanup < CLEANUP_INTERVAL := by
      rw [h1]
      norm_num [CLEANUP_INTERVAL]
    have hstep : handleParsed a "1.1.1.1" 0 s =
        ⟨s.lastMeta ++ [(a, ⟨"1.1.1.1", 0⟩)], s.lastCleanup⟩ := by
      have heq : handleParsed a "1.1.1.1" 0 s =
          cleanupOldMeta 0 ⟨alSet a ⟨"1.1.1.1", 0⟩ s.lastMeta, s.lastCleanup⟩ := rfl
      rw [heq,
        cleanupOldMeta_skip 0 ⟨alSet a ⟨"1.1.1.1", 0⟩ s.lastMeta, s.lastCleanup⟩ hgate,
        hset]
    have hfold : processEvents (mkEvts a (n + 1)) s =
        processEvents (mkEvts (a + 1) n) (handleParsed a "1.1.1.1" 0 s) := rfl
    rw [hfold, hstep]
    obtain ⟨hl, hc, hb⟩ := ih (a + 1)
      ⟨s.lastMeta ++ [(a, ⟨"1.1.1.1", 0⟩)], s.lastCleanup⟩ h1
      (by
        intro u hu
        simp only [List.map_append, List.mem_append, List.map_cons, List.map_nil,
          List.mem_singleton] at hu
        rcases hu with hu | hu
        · have := h2 u hu
          omega
        · omega)
    refine ⟨?_, hc, fun u hu => ?_⟩
    · rw [hl]
      simp only [List.length_append, List.length_singleton]
      omega
    · have := hb u hu
      push_cast at this ⊢
      omega

/-- Claim C1 counterexample: the claim says inserting `capacity + k`
distinct user ids leaves exactly `capacity` (10,000) entries.  Starting
from a fresh extractor state and processing 10,001 successfully parsed log
lines (insert events) for distinct uids, all within the cleanup interval of
the last cleanup, the opportunistic `_cleanup_old_meta` never fires and the
cache ends with 10,001 entries, not 10,000. -/
theorem C1_cex :
    (mkEvts 0 10001).length = MAX_META_ENTRIES + 1 ∧
    ((mkEvts 0 10001).map (fun e => e.1)).Nodup ∧
    (processEvents (mkEvts 0 10001) ⟨[], 0⟩).lastMeta.length ≠ MAX_META_ENTRIES := by
  refine ⟨?_, mkEvts_uids_nodup 10001 0, ?_⟩
  · rw [mkEvts_length 10001 0]
    norm_num [MAX_META_ENTRIES]
  · have h := (processEvents_no_cleanup 10001 0 ⟨[], 0⟩ rfl (by simp)).1
    rw [h]
    norm_num [MAX_META_ENTRIES]

/-- Claim C1, amended: when the final write does trigger the cleanup pass
(the cleanup interval has elapsed) and no entry is TTL-expired, a cache
holding `capacity + k` entries (k > 0, keys distinct) is cut back to
exactly `capacity` = 10,000 entries, and every dropped entry's timestamp is
at most every surviving entry's timestamp (the k oldest are dropped, stable
tie-break); until such a pass runs, the cache may hold `capacity + k`
entries, as the counterexample shows. -/
theorem C1_thm (s : MetaState) (now : Int) (k : Nat)
    (hlen : s.lastMeta.length = MAX_META_ENTRIES + k) (hk : 0 < k)
    (hgate : CLEANUP_INTERVAL ≤ now - s.lastCleanup)
    (httl : ∀ p ∈ s.lastMeta, ¬(p.2.timestamp < now - META_TTL))
    (hkeys : (s.lastMeta.map (fun p => p.1)).Nodup) :
    (cleanupOldMeta now s).lastMeta.length = MAX_META_ENTRIES ∧
    ∀ p ∈ s.lastMeta, p ∉ (cleanupOldMeta now s).lastMeta →
      ∀ q ∈ (cleanupOldMeta now s).lastMeta, p.2.timestamp ≤ q.2.timestamp := by
  have hgate' : ¬(now - s.lastCleanup < CLEANUP_INTERVAL) := not_lt.mpr hgate
  have hfilter : s.lastMeta.filter
      (fun p => !(p.2.timestamp < now - META_TTL)) = s.lastMeta :=
    filter_eq_self_of _ _ (fun p hp => by simpa using httl p hp)
  have hcond : s.lastMeta.length > MAX_META_ENTRIES := by
    rw [hlen]
    omega
  have hres : (cleanupOldMeta now s).lastMeta =
      s.lastMeta.filter (fun p =>
        !((((sortByTs s.lastMeta).take
            (s.lastMeta.length - MAX_META_ENTRIES)).map
          (fun q => q.1)).contains p.1)) := by
    unfold cleanupOldMeta
    rw [if_neg hgate']
    dsimp only
    rw [hfilter, if_pos hcond]
  have hperm := cleanup_capacity_perm s.lastMeta
    (s.lastMeta.length - MAX_META_ENTRIES) hkeys
  constructor
  · rw [hres, hperm.length_eq, List.length_drop,
      (sortByTs_perm s.lastMeta).length_eq, hlen]
    omega
  · intro p hp hnp q hq
    rw [hres] at hnp hq
    have hq' : q ∈ (sortByTs s.lastMeta).drop
        (s.lastMeta.length - MAX_META_ENTRIES) := hperm.mem_iff.mp hq
    have hpsrt : p ∈ sortByTs s.lastMeta :=
      (sortByTs_perm s.lastMeta).mem_iff.mpr hp
    rw [← List.take_append_drop (s.lastMeta.length - MAX_META_ENTRIES)
      (sortByTs s.lastMeta)] at hpsrt
    rcases List.mem_append.mp hpsrt with hptake | hpdrop
    · have hsorted := sortByTs_pairwise s.lastMeta
      rw [← List.take_append_drop (s.lastMeta.length - MAX_META_ENTRIES)
        (sortByTs s.lastMeta)] at hsorted
      exact (List.pairwise_append.mp hsorted).2.2 p hptake q hq'
    · exact absurd (hperm.mem_iff.mpr hpdrop) hnp

theorem mkMeta_length : ∀ (n : Nat) (a : Int), (mkMeta a n).length = n := by
  intro n
  induction n with
  | zero => intro a; rfl
  | succ n ih => intro a; simp [mkMeta, ih]

theorem mkMeta_ts : ∀ (n : Nat) (a : Int) (p : Int × MetaEntry),
    p ∈ mkMeta a n → p.2.timestamp = 3600 := by
  intro n
  induction n with
  | zero => intro a p hp; simp [mkMeta] at hp
  | succ n ih =>
    intro a p hp
    rcases List.mem_cons.mp hp with rfl | hp
    · rfl
    · exact ih (a + 1) p hp

theorem mkMeta_key_lb : ∀ (n : Nat) (a : Int) (u : Int),
    u ∈ (mkMeta a n).map (fun p => p.1) → a ≤ u := by
  intro n
  induction n with
  | zero => intro a u h; simp [mkMeta] at h
  | succ n ih =>
    intro a u h
    simp only [mkMeta, List.map_cons, List.mem_cons] at h
    rcases h with rfl | h
    · exact le_refl u
    · exact le_trans (by omega) (ih (a + 1) u h)

theorem mkMeta_keys_nodup : ∀ (n : Nat) (a : Int),
    ((mkMeta a n).map (fun p => p.1)).Nodup := by
  intro n
  induction n with
  | zero => intro a; simp [mkMeta]
  | succ n ih =>
    intro a
    simp only [mkMeta, List.map_cons, List.nodup_cons]
    refine ⟨fun hmem => ?_, ih (a + 1)⟩
    have := mkMeta_key_lb n (a + 1) a hmem
    omega

/-- Witness for C1_thm at the concrete overfull state `c1State`
(capacity + 1 entries): the cleanup pass cuts it back to exactly 10,000
entries. -/
theorem C1_wit :
    c1State.lastMeta.length = MAX_META_ENTRIES + 1 ∧
    (0 : Nat) < 1 ∧
    CLEANUP_INTERVAL ≤ (3600 : Int) - c1State.lastCleanup ∧
    (∀ p ∈ c1State.lastMeta, ¬(p.2.timestamp < (3600 : Int) - META_TTL)) ∧
    (c1State.lastMeta.map (fun p => p.1)).Nodup ∧
    ((cleanupOldMeta 3600 c1State).lastMeta.length = MAX_META_ENTRIES ∧
     ∀ p ∈ c1State.lastMeta, p ∉ (cleanupOldMeta 3600 c1State).lastMeta →
       ∀ q ∈ (cleanupOldMeta 3600 c1State).lastMeta,
         p.2.timestamp ≤ q.2.timestamp) := by
  have hmeta : c1State.lastMeta = mkMeta 0 10001 := rfl
  have hclean : c1State.lastCleanup = 3300 := rfl
  have h1 : c1State.lastMeta.length = MAX_META_ENTRIES + 1 := by
    rw [hmeta, mkMeta_length]
    norm_num [MAX_META_ENTRIES]
  have h3 : CLEANUP_INTERVAL ≤ (3600 : Int) - c1State.lastCleanup := by
    rw [hclean]
    norm_num [CLEANUP_INTERVAL]
  have h4 : ∀ p ∈ c1State.lastMeta, ¬(p.2.timestamp < (3600 : Int) - META_TTL) := by
    intro p hp
    rw [hmeta] at hp
    rw [mkMeta_ts 10001 0 p hp]
    norm_num [META_TTL]
  have h5 : (c1State.lastMeta.map (fun p => p.1)).Nodup := by
    rw [hmeta]
    exact mkMeta_keys_nodup 10001 0
  exact ⟨h1, by norm_num, h3, h4, h5,
    C1_thm c1State 3600 1 h1 (by norm_num) h3 h4 h5⟩

/-! ## C2: successful parses update the cache -/

/-- The entry written by `_handle_log_line` survives the opportunistic
cleanup that immediately follows it, provided the cache either fits within
the capacity or contains only strictly older entries besides the fresh one
(so the fresh entry cannot tie with evicted oldest timestamps). -/
theorem alGet_cleanup_fresh (now : Int) (m : List (Int × MetaEntry)) (lc : Int)
    (uid : Int) (ip : String)
    (hget : alGet uid m = some ⟨ip, now⟩)
    (hkeys : (m.map (fun p => p.1)).Nodup)
    (hsafe : m.length ≤ MAX_META_ENTRIES ∨
      ∀ p ∈ m, p ≠ (uid, ⟨ip, now⟩) → p.2.timestamp < now) :
    alGet uid (cleanupOldMeta now ⟨m, lc⟩).lastMeta = some ⟨ip, now⟩ := by
  by_cases hgate : now - lc < CLEANUP_INTERVAL
  · rw [cleanupOldMeta_skip now ⟨m, lc⟩ hgate]
    exact hget
  · unfold cleanupOldMeta
    rw [if_neg hgate]
    dsimp only
    have hpredme : (fun p : Int × MetaEntry =>
        !(p.2.timestamp < now - META_TTL)) (uid, ⟨ip, now⟩) = true := by
      simp only [Bool.not_eq_true', decide_eq_false_iff_not, not_lt]
      norm_num [META_TTL]
    have hkeepme : alGet uid (m.filter
        (fun p => !(p.2.timestamp < now - META_TTL))) = some ⟨ip, now⟩ :=
      alGet_filter_some _ hget hpredme
    set kept := m.filter (fun p => !(p.2.timestamp < now - META_TTL)) with hkept
    by_cases hcap : kept.length > MAX_META_ENTRIES
    · rw [if_pos hcap]
      dsimp only
      rcases hsafe with hlen | hts
      · exact absurd (le_trans (List.length_filter_le _ m) hlen) (not_le.mpr hcap)
      · have hkeysk : (kept.map (fun p => p.1)).Nodup :=
          hkeys.sublist ((List.filter_sublist m).map (fun p => p.1))
        have hkeptnd : kept.Nodup := hkeysk.of_map (fun p => p.1)
        have hme : (uid, (⟨ip, now⟩ : MetaEntry)) ∈ kept := alGet_some_mem hkeepme
        have hsrtperm := sortByTs_perm kept
        have hsrtnd : (sortByTs kept).Nodup := hsrtperm.nodup_iff.mpr hkeptnd
        have hnotK : uid ∉ (((sortByTs kept).take
            (kept.length - MAX_META_ENTRIES)).map (fun q => q.1)) := by
          intro hK
          simp only [List.mem_map] at hK
          obtain ⟨p, hptake, hpk⟩ := hK
          have hpkept : p ∈ kept :=
            hsrtperm.mem_iff.mp (List.take_subset _ _ hptake)
          have hpe : p = (uid, (⟨ip, now⟩ : MetaEntry)) :=
            key_unique_of_nodup hkeysk hpkept hme hpk
          subst hpe
          have hdroplen : 0 < ((sortByTs kept).drop
              (kept.length - MAX_META_ENTRIES)).length := by
            rw [List.length_drop, hsrtperm.length_eq]
            have : 0 < MAX_META_ENTRIES := by norm_num [MAX_META_ENTRIES]
            omega
          obtain ⟨q, hqdrop⟩ := List.exists_mem_of_length_pos hdroplen
          have hqkept : q ∈ kept :=
            hsrtperm.mem_iff.mp (List.drop_subset _ _ hqdrop)
          have hqm : q ∈ m := List.mem_of_mem_filter hqkept
          have hqe : q ≠ (uid, (⟨ip, now⟩ : MetaEntry)) := by
            intro hq
            have hnd := hsrtnd
            rw [← List.take_append_drop (kept.length - MAX_META_ENTRIES)
              (sortByTs kept)] at hnd
            exact (List.nodup_append.mp hnd).2.2 hptake (hq ▸ hqdrop)
          have hqlt : q.2.timestamp < now := hts q hqm hqe
          have hsorted := sortByTs_pairwise kept
          rw [← List.take_append_drop (kept.length - MAX_META_ENTRIES)
            (sortByTs kept)] at hsorted
          have hle := (List.pairwise_append.mp hsorted).2.2 _ hptake q hqdrop
          simp only at hle
          omega
        apply alGet_filter_some _ hkeepme
        simp only [Bool.not_eq_true']
        simpa using hnotK
    · rw [if_neg hcap]
      dsimp only
      exact hkeepme

/-- Claim C2 counterexample: the claim quantifies over every line matching
`ACCESS_LOG_RE` with a numeric identity prefix.  The line
`"FROM 1.2.3.4:56  email: 7.u"` matches the pattern (compiled with
`re.IGNORECASE`) with identity `"7.u"` and numeric id 7 — yet processing it
leaves the cache untouched and stores no entry for uid 7, because the cheap
pre-check `"from" in line` is case-sensitive and rejects the line before
the regex ever runs. -/
theorem C2_cex :
    accessLogSearch "FROM 1.2.3.4:56  email: 7.u" = some ("1.2.3.4", "7.u") ∧
    pyInt (beforeDot "7.u") = some 7 ∧
    (handleLogLine "FROM 1.2.3.4:56  email: 7.u" 5 ⟨[], 0⟩).1 = ⟨[], 0⟩ ∧
    alGet 7 (handleLogLine "FROM 1.2.3.4:56  email: 7.u" 5 ⟨[], 0⟩).1.lastMeta =
      none := by
  refine ⟨by decide, by decide, rfl, rfl⟩

/-- Claim C2, amended: for every log line matching the access-log pattern
whose identity prefix parses as a numeric id AND which also contains the
case-sensitive marker substrings `"from"` and `"email:"` demanded by the
pre-check, processing stores `{remote_ip = parsed address,
timestamp = now}` under that id, overwriting any prior entry — provided the
cache (with distinct keys, a dict invariant) is below capacity or holds
only strictly older entries, so that the opportunistic cleanup cannot evict
the fresh entry on a timestamp tie. -/
theorem C2_thm (line : String) (now : Int) (s : MetaState)
    (ip email : String) (uid : Int)
    (hpre1 : hasSub line "from" = true) (hpre2 : hasSub line "email:" = true)
    (hsearch : accessLogSearch line = some (ip, email))
    (huid : pyInt (beforeDot email) = some uid)
    (hkeys : (s.lastMeta.map (fun p => p.1)).Nodup)
    (hsafe : s.lastMeta.length < MAX_META_ENTRIES ∨
      ∀ p ∈ s.lastMeta, p.2.timestamp < now) :
    alGet uid (handleLogLine line now s).1.lastMeta = some ⟨ip, now⟩ ∧
    (handleLogLine line now s).2 = true := by
  rw [handleLogLine_parsed line now s ip email uid hpre1 hpre2 hsearch huid]
  refine ⟨?_, rfl⟩
  show alGet uid (cleanupOldMeta now
    ⟨alSet uid ⟨ip, now⟩ s.lastMeta, s.lastCleanup⟩).lastMeta = some ⟨ip, now⟩
  apply alGet_cleanup_fresh
  · exact alGet_alSet_self uid ⟨ip, now⟩ s.lastMeta
  · exact alSet_keys_nodup _ hkeys
  · rcases hsafe with hlen | hts
    · left
      have := alSet_length_le uid (⟨ip, now⟩ : MetaEntry) s.lastMeta
      omega
    · right
      intro p hp hpne
      rcases alSet_mem hp with rfl | hp
      · exact absurd rfl hpne
      · exact hts p hp

/-- Witness for C2_thm on a concrete well-formed access-log line processed
against the empty cache. -/
theorem C2_wit :
    hasSub "from 1.2.3.4:56  email: 7.u" "from" = true ∧
    hasSub "from 1.2.3.4:56  email: 7.u" "email:" = true ∧
    accessLogSearch "from 1.2.3.4:56  email: 7.u" = some ("1.2.3.4", "7.u") ∧
    pyInt (beforeDot "7.u") = some 7 ∧
    (((⟨[], 0⟩ : MetaState).lastMeta.map (fun p => p.1)).Nodup) ∧
    ((⟨[], 0⟩ : MetaState).lastMeta.length < MAX_META_ENTRIES) ∧
    (alGet 7 (handleLogLine "from 1.2.3.4:56  email: 7.u" 5 ⟨[], 0⟩).1.lastMeta =
        some ⟨"1.2.3.4", 5⟩ ∧
      (handleLogLine "from 1.2.3.4:56  email: 7.u" 5 ⟨[], 0⟩).2 = true) :=
  ⟨by decide, by decide, by decide, by decide, by simp, by norm_num [MAX_META_ENTRIES],
   C2_thm "from 1.2.3.4:56  email: 7.u" 5 ⟨[], 0⟩ "1.2.3.4" "7.u" 7
     (by decide) (by decide) (by decide) (by decide) (by simp)
     (Or.inl (by norm_num [MAX_META_ENTRIES]))⟩

/-! ## Storage lookup lemmas for the reconciliation proofs -/

theorem find?_map_update_self (users : List StoredUser) (u : MUser)
    (ibs : List MInbound)
    (h : users.any (fun su => su.user.id = u.id) = true) :
    (users.map (fun su =>
        if su.user.id = u.id then (⟨u, ibs⟩ : StoredUser) else su)).find?
      (fun su => su.user.id = u.id) = some ⟨u, ibs⟩ := by
  induction users with
  | nil => simp at h
  | cons x xs ih =>
    by_cases hx : x.user.id = u.id
    · rw [List.map_cons, if_pos hx]
      rw [List.find?_cons_of_pos _ (by simp)]
    · rw [List.map_cons, if_neg hx]
      rw [List.find?_cons_of_neg _ (by simp [hx])]
      apply ih
      simpa [hx] using h

theorem find?_map_update_other (users : List StoredUser) (u : MUser)
    (ibs : List MInbound) (uid : Nat) (hne : uid ≠ u.id) :
    (users.map (fun su =>
        if su.user.id = u.id then (⟨u, ibs⟩ : StoredUser) else su)).find?
      (fun su => su.user.id = uid) =
      users.find? (fun su => su.user.id = uid) := by
  induction users with
  | nil => rfl
  | cons x xs ih =>
    by_cases hx : x.user.id = u.id
    · rw [List.map_cons, if_pos hx]
      rw [List.find?_cons_of_neg _ (by simp [Ne.symm hne]),
        List.find?_cons_of_neg _ (by simp [hx, Ne.symm hne])]
      exact ih
    · rw [List.map_cons, if_neg hx]
      by_cases hxu : x.user.id = uid
      · rw [List.find?_cons_of_pos _ (by simp [hxu]),
          List.find?_cons_of_pos _ (by simp [hxu])]
      · rw [List.find?_cons_of_neg _ (by simp [hxu]),
          List.find?_cons_of_neg _ (by simp [hxu])]
        exact ih

theorem find?_eq_none_of_any_false (users : List StoredUser) (u : MUser)
    (h : users.any (fun su => su.user.id = u.id) = false) :
    users.find? (fun su => su.user.id = u.id) = none := by
  rw [List.find?_eq_none]
  intro x hx hpx
  rw [List.any_eq_false] at h
  exact h x hx hpx

theorem find?_append_new (users : List StoredUser) (u : MUser) (ibs : List MInbound)
    (h : users.find? (fun su => su.user.id = u.id) = none) :
    (users ++ [(⟨u, ibs⟩ : StoredUser)]).find?
      (fun su => su.user.id = u.id) = some ⟨u, ibs⟩ := by
  induction users with
  | nil => simp [List.find?]
  | cons x xs ih =>
    rw [List.find?_eq_none] at h
    have hx : ¬(x.user.id = u.id) := by
      have := h x (List.mem_cons_self x xs)
      simpa using this
    rw [List.cons_append, List.find?_cons_of_neg _ (by simp [hx])]
    apply ih
    rw [List.find?_eq_none]
    exact fun a ha => h a (List.mem_cons_of_mem x ha)

theorem find?_append_other (users : List StoredUser) (u : MUser)
    (ibs : List MInbound) (uid : Nat) (hne : uid ≠ u.id) :
    (users ++ [(⟨u, ibs⟩ : StoredUser)]).find? (fun su => su.user.id = uid) =
      users.find? (fun su => su.user.id = uid) := by
  induction users with
  | nil => simp [List.find?, Ne.symm hne]
  | cons x xs ih =>
    by_cases hxu : x.user.id = uid
    · rw [List.cons_append, List.find?_cons_of_pos _ (by simp [hxu]),
        List.find?_cons_of_pos _ (by simp [hxu])]
    · rw [List.cons_append, List.find?_cons_of_neg _ (by simp [hxu]),
        List.find?_cons_of_neg _ (by simp [hxu])]
      exact ih

theorem find?_filter_ne_self (users : List StoredUser) (uid : Nat) :
    (users.filter (fun su => su.user.id ≠ uid)).find?
      (fun su => su.user.id = uid) = none := by
  induction users with
  | nil => rfl
  | cons x xs ih =>
    by_cases hx : x.user.id = uid
    · rw [List.filter_cons_of_neg (by simp [hx])]
      exact ih
    · rw [List.filter_cons_of_pos (by simp [hx]),
        List.find?_cons_of_neg _ (by simp [hx])]
      exact ih

theorem find?_filter_ne_other (users : List StoredUser) (uid uid' : Nat)
    (hne : uid' ≠ uid) :
    (users.filter (fun su => su.user.id ≠ uid)).find?
      (fun su => su.user.id = uid') =
      users.find? (fun su => su.user.id = uid') := by
  induction users with
  | nil => rfl
  | cons x xs ih =>
    by_cases hxu : x.user.id = uid'
    · rw [List.filter_cons_of_pos (by simp [hxu, hne]),
        List.find?_cons_of_pos _ (by simp [hxu]),
        List.find?_cons_of_pos _ (by simp [hxu])]
    · by_cases hx : x.user.id = uid
      · rw [List.filter_cons_of_neg (by simp [hx]),
          List.find?_cons_of_neg _ (by simp [hxu])]
        exact ih
      · rw [List.filter_cons_of_pos (by simp [hx]),
          List.find?_cons_of_neg _ (by simp [hxu]),
          List.find?_cons_of_neg _ (by simp [hxu])]
        exact ih

theorem find?_filter_ids_mem (users : List StoredUser) (ids : List Nat) (uid : Nat)
    (h : ids.contains uid = true) :
    (users.filter (fun su => ids.contains su.user.id)).find?
      (fun su => su.user.id = uid) =
      users.find? (fun su => su.user.id = uid) := by
  induction users with
  | nil => rfl
  | cons x xs ih =>
    by_cases hx : x.user.id = uid
    · rw [List.filter_cons_of_pos (by rw [hx]; simpa using h),
        List.find?_cons_of_pos _ (by simp [hx]),
        List.find?_cons_of_pos _ (by simp [hx])]
    · by_cases hfx : ids.contains x.user.id = true
      · rw [List.filter_cons_of_pos (by simpa using hfx),
          List.find?_cons_of_neg _ (by simp [hx]),
          List.find?_cons_of_neg _ (by simp [hx])]
        exact ih
      · rw [List.filter_cons_of_neg (by simpa using hfx),
          List.find?_cons_of_neg _ (by simp [hx])]
        exact ih

theorem find?_filter_ids_notmem (users : List StoredUser) (ids : List Nat)
    (uid : Nat) (h : ids.contains uid = false) :
    (users.filter (fun su => ids.contains su.user.id)).find?
      (fun su => su.user.id = uid) = none := by
  induction users with
  | nil => rfl
  | cons x xs ih =>
    by_cases hfx : ids.contains x.user.id = true
    · have hx : ¬(x.user.id = uid) := by
        intro he
        rw [he, h] at hfx
        exact Bool.false_ne_true hfx
      rw [List.filter_cons_of_pos (by simpa using hfx),
        List.find?_cons_of_neg _ (by simp [hx])]
      exact ih
    · rw [List.filter_cons_of_neg (by simpa using hfx)]
      exact ih

theorem listUser_updateUserInbounds_self (st : Storage) (u : MUser)
    (ibs : List MInbound) :
    (st.updateUserInbounds u ibs).listUser u.id = some ⟨u, ibs⟩ := by
  unfold Storage.updateUserInbounds Storage.listUser
  by_cases hany : st.users.any (fun su => su.user.id = u.id) = true
  · rw [if_pos hany]
    exact find?_map_update_self st.users u ibs hany
  · rw [if_neg hany]
    exact find?_append_new st.users u ibs
      (find?_eq_none_of_any_false st.users u (by simpa using hany))

theorem listUser_updateUserInbounds_other (st : Storage) (u : MUser)
    (ibs : List MInbound) (uid : Nat) (hne : uid ≠ u.id) :
    (st.updateUserInbounds u ibs).listUser uid = st.listUser uid := by
  unfold Storage.updateUserInbounds Storage.listUser
  by_cases hany : st.users.any (fun su => su.user.id = u.id) = true
  · rw [if_pos hany]
    exact find?_map_update_other st.users u ibs uid hne
  · rw [if_neg hany]
    exact find?_append_other st.users u ibs uid hne

theorem updateUser_catalog (ud : UserData) (st : Storage) :
    (updateUser ud st).1.catalog = st.catalog := by
  unfold updateUser
  cases hfind : st.listUser ud.user.id with
  | none =>
    dsimp only
    rw [hfind]
    dsimp only
    by_cases hlen : ud.inboundTags.length > 0
    · rw [if_pos hlen]
      unfold Storage.updateUserInbounds
      by_cases hany : st.users.any
          (fun su => su.user.id = ud.user.id) = true
      · rw [if_pos hany]
      · rw [if_neg hany]
    · rw [if_neg hlen]
  | some su =>
    dsimp only
    rw [hfind]
    dsimp only
    by_cases hemp : ud.inboundTags.isEmpty = true
    · rw [if_pos hemp]
      rfl
    · rw [if_neg hemp]
      unfold Storage.updateUserInbounds
      by_cases hany : st.users.any
          (fun x => x.user.id = su.user.id) = true
      · rw [if_pos hany]
      · rw [if_neg hany]

theorem listInbounds_catalog_congr (st st' : Storage) (tags : List String)
    (hc : st.catalog = st'.catalog) :
    st.listInbounds tags = st'.listInbounds tags := by
  unfold Storage.listInbounds
  rw [hc]

theorem updateUser_storTags_self (ud : UserData) (st : Storage) :
    storTags (updateUser ud st).1 ud.user.id =
      if ud.inboundTags.isEmpty then none
      else some ((st.listInbounds ud.inboundTags).map (fun i => i.tag)) := by
  unfold updateUser
  cases hfind : st.listUser ud.user.id with
  | none =>
    dsimp only
    rw [hfind]
    dsimp only
    by_cases hlen : ud.inboundTags.length > 0
    · rw [if_pos hlen]
      have hemp : ud.inboundTags.isEmpty = false := by
        cases h : ud.inboundTags with
        | nil =>
          rw [h] at hlen
          simp at hlen
        | cons a l => rfl
      rw [hemp]
      unfold storTags
      rw [listUser_updateUserInbounds_self]
      rfl
    · rw [if_neg hlen]
      have hemp : ud.inboundTags.isEmpty = true := by
        cases h : ud.inboundTags with
        | nil => rfl
        | cons a l =>
          rw [h] at hlen
          simp at hlen
      rw [hemp]
      unfold storTags Storage.listUser
      rw [show st.users.find? (fun su => su.user.id = ud.user.id) = none from hfind]
      rfl
  | some su =>
    dsimp only
    rw [hfind]
    dsimp only
    have hid : su.user.id = ud.user.id := by
      have := List.find?_some hfind
      simpa using this
    by_cases hemp : ud.inboundTags.isEmpty = true
    · rw [if_pos hemp, hemp]
      unfold storTags Storage.removeUser Storage.listUser
      dsimp only
      rw [find?_filter_ne_self]
      rfl
    · rw [if_neg hemp]
      have hemp' : ud.inboundTags.isEmpty = false := by
        simpa using hemp
      rw [hemp']
      unfold storTags
      rw [← hid, listUser_updateUserInbounds_self]
      rfl

theorem updateUser_storTags_other (ud : UserData) (st : Storage) (uid : Nat)
    (hne : uid ≠ ud.user.id) :
    storTags (updateUser ud st).1 uid = storTags st uid := by
  unfold updateUser
  cases hfind : st.listUser ud.user.id with
  | none =>
    dsimp only
    rw [hfind]
    dsimp only
    by_cases hlen : ud.inboundTags.length > 0
    · rw [if_pos hlen]
      unfold storTags
      rw [listUser_updateUserInbounds_other _ _ _ _ hne]
    · rw [if_neg hlen]
  | some su =>
    dsimp only
    rw [hfind]
    dsimp only
    have hid : su.user.id = ud.user.id := by
      have := List.find?_some hfind
      simpa using this
    by_cases hemp : ud.inboundTags.isEmpty = true
    · rw [if_pos hemp]
      unfold storTags Storage.removeUser Storage.listUser
      dsimp only
      rw [find?_filter_ne_other st.users ud.user.id uid hne]
    · rw [if_neg hemp]
      unfold storTags
      rw [listUser_updateUserInbounds_other _ _ _ _ (hid ▸ hne)]

/-! ## C6: `RepopulateUsers` idempotence -/

theorem applyDeltas_catalog (uds : List UserData) :
    ∀ st : Storage, (applyDeltas uds st).catalog = st.catalog := by
  induction uds with
  | nil => intro st; rfl
  | cons ud uds ih =>
    intro st
    show (applyDeltas uds (updateUser ud st).1).catalog = st.catalog
    rw [ih, updateUser_catalog]

theorem applyDeltas_storTags_congr (uds : List UserData) :
    ∀ (st st' : Storage) (uid : Nat), st.catalog = st'.catalog →
      storTags st uid = storTags st' uid →
      storTags (applyDeltas uds st) uid = storTags (applyDeltas uds st') uid := by
  induction uds with
  | nil => intro st st' uid _ hs; exact hs
  | cons ud uds ih =>
    intro st st' uid hc hs
    show storTags (applyDeltas uds (updateUser ud st).1) uid =
      storTags (applyDeltas uds (updateUser ud st').1) uid
    apply ih
    · rw [updateUser_catalog, updateUser_catalog, hc]
    · by_cases h : uid = ud.user.id
      · subst h
        rw [updateUser_storTags_self, updateUser_storTags_self,
          listInbounds_catalog_congr st st' ud.inboundTags hc]
      · rw [updateUser_storTags_other _ _ _ h, updateUser_storTags_other _ _ _ h, hs]

theorem applyDeltas_storTags_indep (uds : List UserData) :
    ∀ (st st' : Storage) (uid : Nat), st.catalog = st'.catalog →
      uid ∈ uds.map (fun ud => ud.user.id) →
      storTags (applyDeltas uds st) uid = storTags (applyDeltas uds st') uid := by
  induction uds with
  | nil =>
    intro st st' uid _ h
    simp at h
  | cons ud uds ih =>
    intro st st' uid hc hmem
    show storTags (applyDeltas uds (updateUser ud st).1) uid =
      storTags (applyDeltas uds (updateUser ud st').1) uid
    by_cases h : uid ∈ uds.map (fun ud => ud.user.id)
    · exact ih _ _ _ (by rw [updateUser_catalog, updateUser_catalog, hc]) h
    · have heq : uid = ud.user.id := by
        rw [List.map_cons] at hmem
        rcases List.mem_cons.mp hmem with h' | h'
        · exact h'
        · exact absurd h' h
      subst heq
      apply applyDeltas_storTags_congr
      · rw [updateUser_catalog, updateUser_catalog, hc]
      · rw [updateUser_storTags_self, updateUser_storTags_self,
          listInbounds_catalog_congr st st' ud.inboundTags hc]

theorem repopulate_catalog (uds : List UserData) (st : Storage) :
    (repopulateUsers uds st).catalog = st.catalog := by
  unfold repopulateUsers
  exact applyDeltas_catalog uds st

theorem repopulate_storTags_mem (uds : List UserData) (st : Storage) (uid : Nat)
    (hmem : uid ∈ uds.map (fun ud => ud.user.id)) :
    storTags (repopulateUsers uds st) uid =
      storTags (applyDeltas uds st) uid := by
  unfold repopulateUsers storTags Storage.listUser
  dsimp only
  rw [find?_filter_ids_mem _ _ _ (List.elem_eq_true_of_mem hmem)]

theorem repopulate_storTags_notmem (uds : List UserData) (st : Storage) (uid : Nat)
    (hmem : uid ∉ uds.map (fun ud => ud.user.id)) :
    storTags (repopulateUsers uds st) uid = none := by
  unfold repopulateUsers storTags Storage.listUser
  dsimp only
  rw [find?_filter_ids_notmem _ _ _ (by
    by_cases h : (uds.map (fun ud => ud.user.id)).contains uid = true
    · exact absurd (by simpa using h) hmem
    · simpa using h)]
  rfl

/-- Claim C6: applying `RepopulateUsers` twice in succession with the same
delta set yields the same stored user/inbound membership as applying it
once — for every user id, the stored inbound tags after the second
application equal those after the first. -/
theorem C6_thm (uds : List UserData) (st : Storage) (uid : Nat) :
    storTags (repopulateUsers uds (repopulateUsers uds st)) uid =
      storTags (repopulateUsers uds st) uid := by
  by_cases hmem : uid ∈ uds.map (fun ud => ud.user.id)
  · rw [repopulate_storTags_mem uds _ uid hmem,
      repopulate_storTags_mem uds st uid hmem]
    exact applyDeltas_storTags_indep uds _ st uid (repopulate_catalog uds st) hmem
  · rw [repopulate_storTags_notmem uds _ uid hmem,
      repopulate_storTags_notmem uds st uid hmem]

/-! ## C4: reconciliation minimality -/

theorem listInbounds_singleton (cat : List MInbound) (t : String)
    (hnd : (cat.map (fun i => i.tag)).Nodup)
    (ht : t ∈ cat.map (fun i => i.tag)) :
    (cat.filter (fun i => ([t] : List String).contains i.tag)).map
      (fun i => i.tag) = [t] := by
  induction cat with
  | nil => simp at ht
  | cons x xs ih =>
    rw [List.map_cons, List.nodup_cons] at hnd
    by_cases hx : x.tag = t
    · rw [List.filter_cons_of_pos (by simp [hx])]
      have hrest : xs.filter (fun i => ([t] : List String).contains i.tag) = [] := by
        apply List.filter_eq_nil_iff.mpr
        intro i hi
        have hit : i.tag ≠ t := by
          intro he
          exact hnd.1 (hx ▸ he ▸ List.mem_map_of_mem (fun i => i.tag) hi)
        simp [hit]
      rw [hrest, List.map_cons, List.map_nil, hx]
    · have hmem : t ∈ xs.map (fun i => i.tag) := by
        rcases List.mem_cons.mp ht with h' | h'
        · exact absurd h'.symm hx
        · exact h'
      rw [List.filter_cons_of_neg (by simp [hx])]
      exact ih hnd.2 hmem

theorem map_tag_singleton {l : List MInbound} {t : String}
    (h : l.map (fun i => i.tag) = [t]) : ∃ i, l = [i] ∧ i.tag = t := by
  cases l with
  | nil => simp at h
  | cons x xs =>
    rw [List.map_cons] at h
    have h1 : x.tag = t := (List.cons.inj h).1
    have h2 : xs = [] := List.map_eq_nil_iff.mp (List.cons.inj h).2
    exact ⟨x, by rw [h2], h1⟩

theorem listInbounds_tags_mem (st : Storage) (tags : List String) (t : String) :
    t ∈ (st.listInbounds tags).map (fun i => i.tag) ↔
      t ∈ st.catalog.map (fun i => i.tag) ∧ t ∈ tags := by
  unfold Storage.listInbounds
  constructor
  · intro h
    simp only [List.mem_map, List.mem_filter] at h
    obtain ⟨i, ⟨hi, hitags⟩, rfl⟩ := h
    exact ⟨List.mem_map_of_mem (fun i => i.tag) hi, by simpa using hitags⟩
  · intro ⟨hcat, htags⟩
    simp only [List.mem_map] at hcat
    obtain ⟨i, hi, rfl⟩ := hcat
    simp only [List.mem_map, List.mem_filter]
    exact ⟨i, ⟨hi, by simpa using htags⟩, rfl⟩

/-- Claim C4: for a stored user with inbound membership `{A, B}` and an
incoming delta with desired inbounds `{B, C}` (A, B, C distinct catalog
tags), `_update_user` issues exactly one remove operation (for A) and
exactly one add operation (for C) against the control API — the operation
list is literally `[remove A, add C]`, so B triggers nothing — and the
stored membership becomes `{B, C}`. -/
theorem C4_thm (st : Storage) (su : StoredUser) (u : MUser) (A B C : String)
    (hAB : A ≠ B) (hBC : B ≠ C) (hAC : A ≠ C)
    (hfind : st.listUser u.id = some su)
    (hsu : su.inbounds.map (fun i => i.tag) = [A, B])
    (hnd : (st.catalog.map (fun i => i.tag)).Nodup)
    (hA : A ∈ st.catalog.map (fun i => i.tag))
    (hB : B ∈ st.catalog.map (fun i => i.tag))
    (hC : C ∈ st.catalog.map (fun i => i.tag)) :
    (updateUser ⟨u, [B, C]⟩ st).2 = [.remove u.id A, .add u.id C] ∧
    ∃ tags, storTags (updateUser ⟨u, [B, C]⟩ st).1 u.id = some tags ∧
      ∀ t, t ∈ tags ↔ t = B ∨ t = C := by
  have hid : su.user.id = u.id := by
    have := List.find?_some hfind
    simpa using this
  have hadded : (([B, C] : List String).filter
      (fun t => !((su.inbounds.map (fun i => i.tag)).contains t))) = [C] := by
    rw [hsu]
    simp [hAB, hBC, hAC, Ne.symm hAB, Ne.symm hBC, Ne.symm hAC]
  have hremoved : ((su.inbounds.map (fun i => i.tag)).filter
      (fun t => !(([B, C] : List String).contains t))) = [A] := by
    rw [hsu]
    simp [hAB, hBC, hAC, Ne.symm hAB, Ne.symm hBC, Ne.symm hAC]
  obtain ⟨iA, hiA, hiAtag⟩ := map_tag_singleton (listInbounds_singleton st.catalog A hnd hA)
  obtain ⟨iC, hiC, hiCtag⟩ := map_tag_singleton (listInbounds_singleton st.catalog C hnd hC)
  have hstep : updateUser ⟨u, [B, C]⟩ st =
      (st.updateUserInbounds su.user (st.listInbounds [B, C]),
       removeUserOps su.user (st.listInbounds [A]) ++
         addUserOps su.user (st.listInbounds [C])) := by
    unfold updateUser
    dsimp only
    rw [hfind]
    dsimp only
    rw [hadded, hremoved]
    rfl
  rw [hstep]
  constructor
  · show removeUserOps su.user (st.listInbounds [A]) ++
      addUserOps su.user (st.listInbounds [C]) = _
    rw [show st.listInbounds [A] =
        st.catalog.filter (fun i => ([A] : List String).contains i.tag) from rfl, hiA]
    rw [show st.listInbounds [C] =
        st.catalog.filter (fun i => ([C] : List String).contains i.tag) from rfl, hiC]
    unfold removeUserOps addUserOps
    rw [List.map_cons, List.map_nil, List.map_cons, List.map_nil,
      List.singleton_append, hiAtag, hiCtag, hid]
  · refine ⟨(st.listInbounds [B, C]).map (fun i => i.tag), ?_, ?_⟩
    · unfold storTags
      rw [← hid, listUser_updateUserInbounds_self]
      rfl
    · intro t
      rw [listInbounds_tags_mem]
      constructor
      · intro ⟨_, ht⟩
        simpa using ht
      · intro h
        rcases h with rfl | rfl
        · exact ⟨hB, by simp⟩
        · exact ⟨hC, by simp⟩

/-- Witness for C4_thm on a concrete storage: user 1 stored on inbounds
A and B, catalog {A, B, C}, delta asking for {B, C}. -/
theorem C4_wit :
    (Storage.listUser
        ⟨[⟨⟨1, "u", "k"⟩, [⟨"A", "p"⟩, ⟨"B", "p"⟩]⟩],
         [⟨"A", "p"⟩, ⟨"B", "p"⟩, ⟨"C", "p"⟩]⟩ 1 =
      some ⟨⟨1, "u", "k"⟩, [⟨"A", "p"⟩, ⟨"B", "p"⟩]⟩) ∧
    ((updateUser ⟨⟨1, "u", "k"⟩, ["B", "C"]⟩
        ⟨[⟨⟨1, "u", "k"⟩, [⟨"A", "p"⟩, ⟨"B", "p"⟩]⟩],
         [⟨"A", "p"⟩, ⟨"B", "p"⟩, ⟨"C", "p"⟩]⟩).2 =
      [.remove 1 "A", .add 1 "C"] ∧
     ∃ tags, storTags (updateUser ⟨⟨1, "u", "k"⟩, ["B", "C"]⟩
        ⟨[⟨⟨1, "u", "k"⟩, [⟨"A", "p"⟩, ⟨"B", "p"⟩]⟩],
         [⟨"A", "p"⟩, ⟨"B", "p"⟩, ⟨"C", "p"⟩]⟩).1 1 = some tags ∧
       ∀ t, t ∈ tags ↔ t = "B" ∨ t = "C") :=
  ⟨by decide,
   C4_thm ⟨[⟨⟨1, "u", "k"⟩, [⟨"A", "p"⟩, ⟨"B", "p"⟩]⟩],
       [⟨"A", "p"⟩, ⟨"B", "p"⟩, ⟨"C", "p"⟩]⟩
     ⟨⟨1, "u", "k"⟩, [⟨"A", "p"⟩, ⟨"B", "p"⟩]⟩ ⟨1, "u", "k"⟩ "A" "B" "C"
     (by decide) (by decide) (by decide) (by decide) (by decide) (by decide)
     (by decide) (by decide) (by decide)⟩

end Marznode
